import Mathlib

/-!
# coredns_mysql: record lookup, wildcard fallback and reply assembly

A shallow embedding of `src/mysql.go` (`findRecord`, `findWildcardRecords`,
`loadZones`) and `src/handler.go` (`ServeDNS`, `errorResponse`), together with the
library functions they call (`strings.TrimSuffix`, `strings.TrimPrefix` of the Go
standard library, `dns.NextLabel` and `dns.IsSubDomain` of `github.com/miekg/dns`,
`plugin.Zones.Matches` of `github.com/coredns/coredns`), which are translated from the
source of those libraries.  The methods `record.As...Record()` are parameters.
The properties of zone matching are stated with `labelAlignedSuffix`, a definition of
its own that uses none of the library functions.

Go strings are byte sequences; they are modelled as `List Char`.  The backing store
is an explicit state machine: every call returns a result and a new store state, so
that a store may answer differently on every call.  Every `db.Query` issued by
`findRecord` is appended, with its outcome, to a log carried next to the store state.
-/

namespace CoreDNSMySql

/-- Go `string`: a sequence of bytes. -/
abbrev Str := List Char

/-- Go `error` values (a non-nil error carries a message). -/
structure GoError where
  msg : Str
deriving DecidableEq, Repr

/-! ## Go standard library: `strings` -/

/-- Go `strings.HasSuffix`: `len(s) >= len(suffix) && s[len(s)-len(suffix):] == suffix`. -/
def HasSuffix (s suffix : Str) : Bool :=
  decide (suffix.length ≤ s.length) && (s.drop (s.length - suffix.length) == suffix)

/-- Go `strings.TrimSuffix`: `s` without the trailing `suffix`, or `s` itself. -/
def TrimSuffix (s suffix : Str) : Str :=
  if HasSuffix s suffix then s.take (s.length - suffix.length) else s

/-- Go `strings.HasPrefix`: `len(s) >= len(p) && s[:len(p)] == p`. -/
def HasPrefix (s p : Str) : Bool :=
  decide (p.length ≤ s.length) && (s.take p.length == p)

/-- Go `strings.TrimPrefix`: `s` without the leading `p`, or `s` itself. -/
def TrimPrefix (s p : Str) : Str :=
  if HasPrefix s p then s.drop p.length else s

/-! ## `github.com/miekg/dns`: label scanning -/

/-- The inner loop of `dns.NextLabel`: `j := i - 1; for j >= 0 && s[j] == '\\' { j-- }`.
The argument is `j + 1`, the result is the final `j` (`-1` when the loop runs off the
start of the string). -/
def backScan (s : Str) : Nat → Int
  | 0 => -1
  | k + 1 => if s[k]? = some '\\' then backScan s k else (k : Int)

/-- The outer loop of `dns.NextLabel`, with the number of remaining iterations as first
argument: `for i = offset; i < len(s)-1; i++ { if s[i] != '.' { continue }; j := ...;
if (j-i)%2 == 0 { continue }; return i + 1, false }; return i + 1, true`.  The remainder
is only compared with zero, where Go's `%` and `Int` remainder agree. -/
def nextLabelLoop (s : Str) : Nat → Nat → Nat × Bool
  | 0, i => (i + 1, true)
  | n + 1, i =>
    if s[i]? ≠ some '.' then nextLabelLoop s n (i + 1)
    else if (backScan s i - (i : Int)) % 2 = 0 then nextLabelLoop s n (i + 1)
    else (i + 1, false)

/-- Library `dns.NextLabel(s, offset)`: the index of the start of the next label and
whether the end of the string was reached; `if s == "" { return 0, true }` comes
first.  A dot is a label separator when the run of backslashes before it is even. -/
def NextLabel (s : Str) (offset : Nat) : Nat × Bool :=
  if s = [] then (0, true) else nextLabelLoop s (s.length - 1 - offset) offset

/-! ## The records table -/

/-- The `Record` built from one scanned row (`src/mysql.go`, lines 60-67). -/
structure Record where
  Name : Str
  Zone : Str
  RecordType : Str
  Ttl : Nat
  Content : Str
deriving DecidableEq, Repr

/-- The parameters of one `db.Query` of `findRecord`: the `zone` and `name` bound to
the two placeholders and the `types` joined into the `IN (...)` list. -/
structure Lookup where
  zone : Str
  name : Str
  types : List Str
deriving DecidableEq, Repr

/-- The backing store as seen by the handler.  `db` is `handler.db()` (open and
ping; `some err` when it fails), `Query` is the records query, whose rows are scanned
one by one and may each fail to scan, `Zones` is the `SELECT DISTINCT zone` query.
The rows of a query are those `result.Next()` delivers: when the iteration itself breaks
off, `findRecord` and `loadZones`, which never read `result.Err()`, see the rows end. -/
structure Store (σ : Type) where
  db : σ → Option GoError × σ
  Query : Lookup → σ → Except GoError (List (Except GoError Record)) × σ
  Zones : σ → Except GoError (List (Except GoError Str)) × σ

/-- One `db.Query` of `findRecord` as it is logged: its parameters, and what the
query and the scan loop after it produced (the records, or the error). -/
structure Event where
  lookup : Lookup
  result : Except GoError (List Record)

/-- The store state together with the log of the record lookups issued so far. -/
structure World (σ : Type) where
  st : σ
  log : List Event

/-- The loop `for result.Next() { err = result.Scan(...); ...; append }`. -/
def scanRows {α : Type} : List (Except GoError α) → List α → Except GoError (List α)
  | [], acc => .ok acc
  | .error e :: _, _ => .error e
  | .ok r :: rest, acc => scanRows rest (acc ++ [r])

/-- What `findRecord` returns (`[]*Record, error`) and the world it leaves. -/
abbrev FindResult (σ : Type) := Except GoError (List Record) × World σ

def wildcard : Str := ['*']

def wildcardPrefix : Str := wildcard ++ ['.']

/-- Source `findWildcardRecords` (`src/mysql.go`, lines 83-102); the recursive call
to `findRecord` is the first argument. -/
def findWildcardRecords {σ : Type}
    (findRecord : Str → Str → List Str → World σ → Option (FindResult σ))
    (zone name : Str) (types : List Str) (w : World σ) : Option (FindResult σ) :=
  if name = wildcard then some (.ok [], w)
  else
    let name := TrimPrefix name wildcardPrefix
    let r := NextLabel name 0
    let target := if !r.2 then wildcardPrefix ++ name.drop r.1 else wildcard
    findRecord zone target types w

/-- Lines 19-22 of `findRecord`: `var query string; if name != zone { query =
strings.TrimSuffix(name, "."+zone) }`, the owner name bound to the store query. -/
def relativeName (zone name : Str) : Str :=
  if name ≠ zone then TrimSuffix name (['.'] ++ zone) else []

/-- The body of source `findRecord` (`src/mysql.go`, lines 12-78); the call to
itself that `findWildcardRecords` makes is the argument `self`. -/
def findRecordBody {σ : Type} (S : Store σ)
    (self : Str → Str → List Str → World σ → Option (FindResult σ))
    (zone name : Str) (types : List Str) (w : World σ) : Option (FindResult σ) :=
  match S.db w.st with
  | (some err, st) => some (.error err, ⟨st, w.log⟩)
  | (none, st) =>
    let query : Str := relativeName zone name
    match S.Query ⟨zone, query, types⟩ st with
    | (.error err, st) =>
      some (.error err, ⟨st, w.log ++ [⟨⟨zone, query, types⟩, .error err⟩]⟩)
    | (.ok rows, st) =>
      match scanRows rows [] with
      | .error err => some (.error err, ⟨st, w.log ++ [⟨⟨zone, query, types⟩, .error err⟩]⟩)
      | .ok records =>
        if records.length = 0 ∧ name ≠ zone then
          findWildcardRecords self zone name types
            ⟨st, w.log ++ [⟨⟨zone, query, types⟩, .ok records⟩]⟩
        else some (.ok records, ⟨st, w.log ++ [⟨⟨zone, query, types⟩, .ok records⟩]⟩)

/-- Source `findRecord` with a bound on the depth of the recursion through
`findWildcardRecords`; `none` when the bound is exhausted. -/
def findRecordFuel {σ : Type} (S : Store σ) :
    Nat → Str → Str → List Str → World σ → Option (FindResult σ)
  | 0 => fun _ _ _ _ => none
  | fuel + 1 => findRecordBody S (findRecordFuel S fuel)

/-- Source `findRecord`: the recursion bound `len(name) + 3` is never exhausted
(`findRecordFuel_enough`), so the fallback value is never taken. -/
def findRecord {σ : Type} (S : Store σ) (zone name : Str) (types : List Str)
    (w : World σ) : FindResult σ :=
  (findRecordFuel S (name.length + 3) zone name types w).getD (.ok [], w)

/-! ## `github.com/miekg/dns` and `coredns/plugin`: zone matching -/

/-- The loop of `dns.Split`: `off, end = NextLabel(s, off); if end { return idx };
idx = append(idx, off)`, with a bound on the number of iterations. -/
def splitLoop (s : Str) : Nat → Nat → List Nat → List Nat
  | 0, _, idx => idx
  | n + 1, off, idx =>
    let r := NextLabel s off
    if r.2 then idx else splitLoop s n r.1 (idx ++ [r.1])

/-- Library `dns.Split`: the start index of every label; `nil` for the root.  Each
iteration advances `off`, so `len(s) + 1` iterations are enough (`splitLoop_fuel`). -/
def Split (s : Str) : List Nat :=
  if s = ['.'] then [] else splitLoop s (s.length + 1) 0 [0]

/-- The loop of `dns.CountLabel`: `off, end = NextLabel(s, off); labels++;
if end { return }`, with a bound on the number of iterations. -/
def countLoop (s : Str) : Nat → Nat → Nat → Nat
  | 0, _, labels => labels
  | n + 1, off, labels =>
    let r := NextLabel s off
    if r.2 then labels + 1 else countLoop s n r.1 (labels + 1)

/-- Library `dns.CountLabel`: the number of labels, 0 for the root; `len(s) + 1`
iterations are enough (`countLoop_fuel`). -/
def CountLabel (s : Str) : Nat :=
  if s = ['.'] then 0 else countLoop s (s.length + 1) 0 0

/-- The case folding of the library's `equal`: `if c >= 'A' && c <= 'Z' { c |= 'a' - 'A' }`. -/
def foldCase (c : Char) : Char :=
  if 'A' ≤ c ∧ c ≤ 'Z' then Char.ofNat (c.toNat + 32) else c

/-- The library's `equal(a, b)`: equal lengths and equal bytes once upper-case ASCII
letters are folded to lower case. -/
def equal (a b : Str) : Bool :=
  decide (a.length = b.length) && (a.map foldCase == b.map foldCase)

/-- Go slice expression `s[i:j]`. -/
def slice (s : Str) (i j : Nat) : Str := (s.take j).drop i

/-- The loop of `dns.CompareDomainName` walking both label lists from the right:
`if i1 < 0 || i2 < 0 { break }; if equal(s1[l1[i1]:l1[j1]], s2[l2[i2]:l2[j2]]) { n++ }
else { break }; j1--; i1--; j2--; i2--`.  The two counters are `i1 + 1` and `i2 + 1`
(which are `j1` and `j2`), so that `0` stands for `i < 0`. -/
def compareLoop (s1 s2 : Str) (l1 l2 : List Nat) : Nat → Nat → Nat → Nat
  | 0, _, n => n
  | _ + 1, 0, n => n
  | k1 + 1, k2 + 1, n =>
    if equal (slice s1 (l1.getD k1 0) (l1.getD (k1 + 1) 0))
        (slice s2 (l2.getD k2 0) (l2.getD (k2 + 1) 0)) then
      compareLoop s1 s2 l1 l2 k1 k2 (n + 1)
    else n

/-- Library `dns.CompareDomainName`: the number of labels the two names share,
counted from the right: `if s1 == "." || s2 == "." { return 0 }`, then with
`l1 := Split(s1)`, `l2 := Split(s2)`, `j1 := len(l1) - 1`, `j2 := len(l2) - 1` the last
labels `s1[l1[j1]:]` and `s2[l2[j2]:]` are compared, and then the labels before them. -/
def CompareDomainName (s1 s2 : Str) : Nat :=
  if s1 = ['.'] ∨ s2 = ['.'] then 0
  else
    let l1 := Split s1
    let l2 := Split s2
    let j1 := l1.length - 1
    let j2 := l2.length - 1
    if equal (s1.drop (l1.getD j1 0)) (s2.drop (l2.getD j2 0)) then
      compareLoop s1 s2 l1 l2 j1 j2 1
    else 0

/-- Library `dns.IsSubDomain(parent, child)`:
`CompareDomainName(parent, child) == CountLabel(parent)`. -/
def IsSubDomain (parent child : Str) : Bool :=
  CompareDomainName parent child == CountLabel parent

/-- The loop of `plugin.Zones.Matches`: `if dns.IsSubDomain(zname, qname) {
if len(zname) > len(zone) { zone = zname } }`. -/
def matchesLoop (qname : Str) : List Str → Str → Str
  | [], zone => zone
  | zname :: rest, zone =>
    if IsSubDomain zname qname then
      if zname.length > zone.length then matchesLoop qname rest zname
      else matchesLoop qname rest zone
    else matchesLoop qname rest zone

/-- Library `plugin.Zones(z).Matches(qname)`: the most specific zone that matches, the
empty string when none does. -/
def Matches (z : List Str) (qname : Str) : Str := matchesLoop qname z []

/-! ## Labels and label-aligned suffixes -/

/-- The pieces of `s` between consecutive offsets of `l`, the last one ending at `e`. -/
def cuts (s : Str) (l : List Nat) (e : Nat) : List Str :=
  List.zipWith (slice s) l (l.tail ++ [e])

/-- The labels of a name: the pieces of the name between the label offsets, each with
its closing dot.  The root name has no label. -/
def labels (s : Str) : List Str := cuts s (Split s) s.length

/-- The labels of a name with upper-case ASCII letters folded to lower case. -/
def lowerLabels (s : Str) : List Str := (labels s).map (List.map foldCase)

/-- The name `z` is a label-aligned, case-insensitive suffix of the name `q`: the
labels of `z` are the last labels of `q`, letter case apart. -/
def labelSuffix (z q : Str) : Prop := lowerLabels z <:+ lowerLabels q

instance (z q : Str) : Decidable (labelSuffix z q) := by
  unfold labelSuffix
  infer_instance

/-- The labels of a name read from the left, by the rules of the presentation format
of domain names and with no reference to the library: a dot closes a label (and stays
with it) unless a backslash escapes it or it is the last character of the name.
`esc` tells that the character before was an escaping backslash, `cur` is the label
read so far. -/
def splitLabels : Str → Bool → Str → List Str
  | [], _, cur => [cur]
  | c :: rest, esc, cur =>
    if !esc && c == '.' && !rest.isEmpty then (cur ++ [c]) :: splitLabels rest false []
    else splitLabels rest (!esc && c == '\\') (cur ++ [c])

/-- The labels of a name, first to last, each with its closing dot.  The root name `.`
has no label. -/
def nameLabels (s : Str) : List Str :=
  if s = ['.'] then [] else splitLabels s false []

/-- The name `z` is a label-aligned, case-insensitive suffix of the name `q`, stated
without the library: the labels of `z` are the last labels of `q`, once the upper-case
ASCII letters of both are turned to lower case by `Char.toLower`. -/
def labelAlignedSuffix (z q : Str) : Prop :=
  (nameLabels z).map (List.map Char.toLower) <:+ (nameLabels q).map (List.map Char.toLower)

instance (z q : Str) : Decidable (labelAlignedSuffix z q) := by
  unfold labelAlignedSuffix
  infer_instance

/-- The offsets `dns.Split` appends once its loop has reached offset `off`. -/
def restOffsets (s : Str) (off : Nat) : List Nat := splitLoop s (s.length + 1) off []

/-- The test of `dns.NextLabel` for an escaped character at index `i`:
`(j-i)%2 == 0` after the backward scan over backslashes. -/
def escapedAt (s : Str) (i : Nat) : Bool := decide ((backScan s i - (i : Int)) % 2 = 0)

/-- The number of leading positions at which two lists of labels are `equal`. -/
def commonLen : List Str → List Str → Nat
  | x :: xs, y :: ys => if equal x y then commonLen xs ys + 1 else 0
  | _, _ => 0

/-- The labels before offset number `k` of `l`, the nearest first:
`s[l[k-1]:l[k]]`, ..., `s[l[0]:l[1]]`. -/
def revSegs (s : Str) (l : List Nat) : Nat → List Str
  | 0 => []
  | k + 1 => slice s (l.getD k 0) (l.getD (k + 1) 0) :: revSegs s l k

/-- The labels of a name from the last to the first, as `dns.CompareDomainName` walks
them. -/
def revLabels (s : Str) : List Str :=
  if s = ['.'] then []
  else s.drop ((Split s).getD ((Split s).length - 1) 0) :: revSegs s (Split s) ((Split s).length - 1)

/-! ## `src/handler.go` -/

/-- The field of `CoreDNSMySql` that `ServeDNS` reads and `loadZones` replaces. -/
structure Handler where
  zones : List Str
deriving DecidableEq, Repr

/-- Source `loadZones` (`src/mysql.go`, lines 104-131); the error is `none` for `nil`. -/
def loadZones {σ : Type} (S : Store σ) (handler : Handler) (w : World σ) :
    Option GoError × Handler × World σ :=
  match S.db w.st with
  | (some err, st) => (some err, handler, ⟨st, w.log⟩)
  | (none, st) =>
    match S.Zones st with
    | (.error err, st) => (some err, handler, ⟨st, w.log⟩)
    | (.ok rows, st) =>
      match scanRows rows [] with
      | .error err => (some err, handler, ⟨st, w.log⟩)
      | .ok zones => (none, { handler with zones := zones }, ⟨st, w.log⟩)

def RcodeSuccess : Nat := 0

def RcodeServerFailure : Nat := 2

def RcodeNameError : Nat := 3

def RcodeNotImplemented : Nat := 4

/-- The parts of `dns.Msg` the handler sets; `RR` is `dns.RR`. -/
structure Msg (RR : Type) where
  Rcode : Nat
  Authoritative : Bool
  RecursionAvailable : Bool
  Compress : Bool
  Answer : List RR
  Ns : List RR
  Extra : List RR
deriving DecidableEq, Repr

/-- What one call of `ServeDNS` does with the request: hand it to the next plugin
(`plugin.NextOrFailure`), or write the message `m` and return `(rcode, err)`. -/
inductive Outcome (RR : Type) where
  | next
  | wrote (m : Msg RR) (rcode : Nat) (err : Option GoError)
deriving DecidableEq, Repr

/-- The outcome of `ServeDNS` with the handler and the world it leaves. -/
structure Served (σ RR : Type) where
  outcome : Outcome RR
  handler : Handler
  world : World σ

/-- Source `errorResponse` (`src/handler.go`, lines 152-161): `m.SetRcode(state.Req, rCode)`
leaves the three record sections empty. -/
def errorResponse {RR : Type} (rCode : Nat) (err : Option GoError) : Outcome RR :=
  .wrote ⟨rCode, true, false, true, [], [], []⟩ RcodeSuccess err

/-- The three values `answer, extras, err` a method `record.As...Record()` returns. -/
structure Translation (RR : Type) where
  answer : Option RR
  extras : List RR
  err : Option GoError

/-- The nine methods `record.AsARecord()` ... `record.AsCAARecord()`.  Their file is
not part of the sources at hand; they are parameters of the handler. -/
structure Translator (RR : Type) where
  AsARecord : Record → Translation RR
  AsAAAARecord : Record → Translation RR
  AsCNAMERecord : Record → Translation RR
  AsSOARecord : Record → Translation RR
  AsSRVRecord : Record → Translation RR
  AsNSRecord : Record → Translation RR
  AsMXRecord : Record → Translation RR
  AsTXTRecord : Record → Translation RR
  AsCAARecord : Record → Translation RR

/-- The `switch record.RecordType` of `ServeDNS` (lines 98-119); `none` is the
`default:` branch. -/
def translate {RR : Type} (T : Translator RR) (record : Record) : Option (Translation RR) :=
  if record.RecordType = ['A'] then some (T.AsARecord record)
  else if record.RecordType = ['A', 'A', 'A', 'A'] then some (T.AsAAAARecord record)
  else if record.RecordType = ['C', 'N', 'A', 'M', 'E'] then some (T.AsCNAMERecord record)
  else if record.RecordType = ['S', 'O', 'A'] then some (T.AsSOARecord record)
  else if record.RecordType = ['S', 'R', 'V'] then some (T.AsSRVRecord record)
  else if record.RecordType = ['N', 'S'] then some (T.AsNSRecord record)
  else if record.RecordType = ['M', 'X'] then some (T.AsMXRecord record)
  else if record.RecordType = ['T', 'X', 'T'] then some (T.AsTXTRecord record)
  else if record.RecordType = ['C', 'A', 'A'] then some (T.AsCAARecord record)
  else none

/-- The loop `for _, record := range records` of `ServeDNS` (lines 96-127), started
with the current `answers` and `extras`: the first failure is `(rCode, err)` for
`errorResponse`, otherwise the final `answers` and `extras`. -/
def translateLoop {RR : Type} (T : Translator RR) :
    List Record → List RR → List RR → Except (Nat × Option GoError) (List RR × List RR)
  | [], answers, extras => .ok (answers, extras)
  | record :: rest, answers, _ =>
    match translate T record with
    | none => .error (RcodeNotImplemented, none)
    | some t =>
      match t.err with
      | some err => .error (RcodeServerFailure, some err)
      | none =>
        match t.answer with
        | some answer => translateLoop T rest (answers ++ [answer]) t.extras
        | none => translateLoop T rest answers t.extras

/-- The translation method of each supported record type, as the specification lists
them: A, AAAA, CNAME, SOA, SRV, NS, MX, TXT, CAA. -/
def translatorMethods {RR : Type} (T : Translator RR) :
    List (Str × (Record → Translation RR)) :=
  [("A".toList, T.AsARecord), ("AAAA".toList, T.AsAAAARecord),
   ("CNAME".toList, T.AsCNAMERecord), ("SOA".toList, T.AsSOARecord),
   ("SRV".toList, T.AsSRVRecord), ("NS".toList, T.AsNSRecord),
   ("MX".toList, T.AsMXRecord), ("TXT".toList, T.AsTXTRecord),
   ("CAA".toList, T.AsCAARecord)]

/-- The answer the translation of a record gives, when it gives one. -/
def answerOf {RR : Type} (T : Translator RR) (record : Record) : Option RR :=
  (translate T record).bind (fun t => t.answer)

/-- The additional records the translation of a record gives. -/
def extrasOf {RR : Type} (T : Translator RR) (record : Record) : List RR :=
  match translate T record with
  | some t => t.extras
  | none => []

/-- The record has a supported type and its translation gives a nil error. -/
def translatesNoError {RR : Type} (T : Translator RR) (record : Record) : Bool :=
  match translate T record with
  | some ⟨_, _, none⟩ => true
  | _ => false

/-- The record has a supported type and its translation gives an answer and a nil
error. -/
def translatesOk {RR : Type} (T : Translator RR) (record : Record) : Bool :=
  match translate T record with
  | some ⟨some _, _, none⟩ => true
  | _ => false

/-- Lines 129-141 of `ServeDNS`: `m.SetReply(r)` and the three sections. -/
def buildReply {RR : Type} (recordNotFound : Bool) (answers extras : List RR) : Msg RR :=
  if !recordNotFound then ⟨RcodeSuccess, true, false, true, answers, [], extras⟩
  else ⟨RcodeNameError, true, false, true, [], answers, extras⟩

/-- Lines 81-146 of `ServeDNS`, once `records` and `recordNotFound` are known. -/
def serveRecords {σ RR : Type} (S : Store σ) (T : Translator RR) (handler : Handler)
    (qZone qName qType : Str) (recordNotFound : Bool) (records : List Record)
    (w : World σ) : Served σ RR :=
  let r : Except GoError (List Record) × World σ :=
    if qType = ['S', 'O', 'A'] then
      match findRecord S qZone qName [['N', 'S']] w with
      | (.error err, w) => (.error err, w)
      | (.ok recsNs, w) => (.ok (records ++ recsNs), w)
    else (.ok records, w)
  match r with
  | (.error err, w) => ⟨errorResponse RcodeServerFailure (some err), handler, w⟩
  | (.ok records, w) =>
    if qType = ['A', 'X', 'F', 'R'] then ⟨errorResponse RcodeNotImplemented none, handler, w⟩
    else
      match translateLoop T records [] [] with
      | .error (rCode, err) => ⟨errorResponse rCode err, handler, w⟩
      | .ok (answers, extras) =>
        ⟨.wrote (buildReply recordNotFound answers extras) RcodeSuccess none, handler, w⟩

/-- Source `ServeDNS` (`src/handler.go`, lines 31-147).  `qName` and `qType` are
`state.Name()` and `state.Type()`; `stale` is the value of
`time.Since(handler.lastZoneUpdate) > handler.zoneUpdateTime`.  The message is the
one handed to the framework's `state.SizeAndDo` and `state.Scrub` before
`w.WriteMsg`; those two (EDNS0 sizing and truncation) are not modelled. -/
def ServeDNS {σ RR : Type} (S : Store σ) (T : Translator RR) (handler : Handler)
    (stale : Bool) (qName qType : Str) (w : World σ) : Served σ RR :=
  let l : Option GoError × Handler × World σ :=
    if stale then loadZones S handler w else (none, handler, w)
  match l with
  | (some err, handler, w) => ⟨errorResponse RcodeServerFailure (some err), handler, w⟩
  | (none, handler, w) =>
    let qZone := Matches handler.zones qName
    if qZone = [] then ⟨.next, handler, w⟩
    else
      match findRecord S qZone qName [qType] w with
      | (.error err, w) => ⟨errorResponse RcodeServerFailure (some err), handler, w⟩
      | (.ok records, w) =>
        if records.length = 0 then
          match findRecord S qZone [] [['S', 'O', 'A']] w with
          | (.error err, w) => ⟨errorResponse RcodeServerFailure (some err), handler, w⟩
          | (.ok recs, w) => serveRecords S T handler qZone qName qType true (records ++ recs) w
        else serveRecords S T handler qZone qName qType false records w

/-! ## Stores and translators for concrete runs -/

/-- A store with no rows at all that never fails. -/
def emptyStore : Store Unit where
  db := fun s => (none, s)
  Query := fun _ s => (.ok [], s)
  Zones := fun s => (.ok [], s)

/-- A store whose connection opens and whose every query fails. -/
def failingStore : Store Unit where
  db := fun s => (none, s)
  Query := fun _ s => (.error ⟨"query failed".toList⟩, s)
  Zones := fun s => (.error ⟨"query failed".toList⟩, s)

/-- A store over a fixed table: the rows whose `zone` and `name` are the two
parameters and whose `record_type` is one of `types`, in table order. -/
def tableStore (rows : List Record) : Store Unit where
  db := fun s => (none, s)
  Query := fun l s =>
    (.ok ((rows.filter (fun r =>
      r.Zone == l.zone && r.Name == l.name && l.types.contains r.RecordType)).map .ok), s)
  Zones := fun s => (.ok ((rows.map (fun r => r.Zone)).eraseDups.map .ok), s)

def exampleZone : Str := "example.com.".toList

def soaRow : Record :=
  ⟨[], exampleZone, "SOA".toList, 300,
    "ns1.example.com. admin.example.com. 1 3600 600 86400 300".toList⟩

def wwwRow : Record := ⟨"www".toList, exampleZone, "A".toList, 300, "1.2.3.4".toList⟩

def ns1Row : Record := ⟨[], exampleZone, "NS".toList, 300, "ns1.example.com.".toList⟩

def ns2Row : Record := ⟨[], exampleZone, "NS".toList, 300, "ns2.example.com.".toList⟩

def subNsRow : Record := ⟨"sub".toList, exampleZone, "NS".toList, 300, "ns.other.net.".toList⟩

/-- The table of the scenario of the specification, with two name servers at the
apex and a delegated name `sub`. -/
def exampleRows : List Record := [soaRow, wwwRow, ns1Row, ns2Row, subNsRow]

/-- A stand-in translator: the answer is the record itself; a name-server record comes
with one additional record (an address for its target), every other record with none. -/
def exampleTranslator : Translator Record where
  AsARecord := fun r => ⟨some r, [], none⟩
  AsAAAARecord := fun r => ⟨some r, [], none⟩
  AsCNAMERecord := fun r => ⟨some r, [], none⟩
  AsSOARecord := fun r => ⟨some r, [], none⟩
  AsSRVRecord := fun r => ⟨some r, [], none⟩
  AsNSRecord := fun r => ⟨some r, [⟨r.Content, r.Zone, "A".toList, r.Ttl, "192.0.2.1".toList⟩], none⟩
  AsMXRecord := fun r => ⟨some r, [], none⟩
  AsTXTRecord := fun r => ⟨some r, [], none⟩
  AsCAARecord := fun r => ⟨some r, [], none⟩

/-- The owner names of the lookups in a log, in the order they were issued. -/
def lookupNames (log : List Event) : List Str := log.map (fun e => e.lookup.name)

/-! ## The wildcard chain and the runs of `findRecord` -/

/-- The name `findWildcardRecords` passes on to `findRecord` (lines 93-99). -/
def wildcardTarget (name : Str) : Str :=
  let name := TrimPrefix name wildcardPrefix
  let r := NextLabel name 0
  if !r.2 then wildcardPrefix ++ name.drop r.1 else wildcard

/-- The quantity that decreases along the chain of wildcard targets. -/
def chainMeasure (name : Str) : Nat :=
  if name = wildcard then 0
  else if HasPrefix name wildcardPrefix then name.length else name.length + 2

/-- The event `findRecord(zone, name, types)` logs for its query. -/
def eventOf (zone name : Str) (types : List Str) (result : Except GoError (List Record)) :
    Event :=
  ⟨⟨zone, relativeName zone name, types⟩, result⟩

/-- The runs of `findRecord(zone, name, types)` from a world `w`, one rule per way
through the source function. -/
inductive Run {σ : Type} (S : Store σ) (zone : Str) (types : List Str) :
    Str → World σ → FindResult σ → Prop where
  | dbFail (name : Str) (w : World σ) (err : GoError) (st : σ)
      (hdb : S.db w.st = (some err, st)) :
      Run S zone types name w (.error err, ⟨st, w.log⟩)
  | queryFail (name : Str) (w : World σ) (err : GoError) (st st2 : σ)
      (hdb : S.db w.st = (none, st))
      (hq : S.Query ⟨zone, relativeName zone name, types⟩ st = (.error err, st2)) :
      Run S zone types name w
        (.error err, ⟨st2, w.log ++ [eventOf zone name types (.error err)]⟩)
  | scanFail (name : Str) (w : World σ) (err : GoError) (st st2 : σ)
      (rows : List (Except GoError Record))
      (hdb : S.db w.st = (none, st))
      (hq : S.Query ⟨zone, relativeName zone name, types⟩ st = (.ok rows, st2))
      (hs : scanRows rows [] = .error err) :
      Run S zone types name w
        (.error err, ⟨st2, w.log ++ [eventOf zone name types (.error err)]⟩)
  | found (name : Str) (w : World σ) (st st2 : σ)
      (rows : List (Except GoError Record)) (records : List Record)
      (hdb : S.db w.st = (none, st))
      (hq : S.Query ⟨zone, relativeName zone name, types⟩ st = (.ok rows, st2))
      (hs : scanRows rows [] = .ok records)
      (hr : ¬ (records.length = 0 ∧ name ≠ zone)) :
      Run S zone types name w
        (.ok records, ⟨st2, w.log ++ [eventOf zone name types (.ok records)]⟩)
  | exhausted (name : Str) (w : World σ) (st st2 : σ)
      (rows : List (Except GoError Record)) (records : List Record)
      (hdb : S.db w.st = (none, st))
      (hq : S.Query ⟨zone, relativeName zone name, types⟩ st = (.ok rows, st2))
      (hs : scanRows rows [] = .ok records)
      (hr : records.length = 0 ∧ name ≠ zone) (hw : name = wildcard) :
      Run S zone types name w
        (.ok [], ⟨st2, w.log ++ [eventOf zone name types (.ok records)]⟩)
  | fallThrough (name : Str) (w : World σ) (st st2 : σ)
      (rows : List (Except GoError Record)) (records : List Record) (r : FindResult σ)
      (hdb : S.db w.st = (none, st))
      (hq : S.Query ⟨zone, relativeName zone name, types⟩ st = (.ok rows, st2))
      (hs : scanRows rows [] = .ok records)
      (hr : records.length = 0 ∧ name ≠ zone) (hw : name ≠ wildcard)
      (hrec : Run S zone types (wildcardTarget name)
        ⟨st2, w.log ++ [eventOf zone name types (.ok records)]⟩ r) :
      Run S zone types name w r

/-! ## The wildcard chain: termination -/

theorem findWildcardRecords_eq {σ : Type}
    (f : Str → Str → List Str → World σ → Option (FindResult σ))
    (zone name : Str) (types : List Str) (w : World σ) :
    findWildcardRecords f zone name types w =
      if name = wildcard then some (.ok [], w) else f zone (wildcardTarget name) types w := rfl

theorem nextLabelLoop_lt (s : Str) (n i r : Nat) (h : nextLabelLoop s n i = (r, false)) :
    i + 1 ≤ r ∧ r ≤ i + n := by
  induction n generalizing i with
  | zero => simp [nextLabelLoop] at h
  | succ n ih =>
    unfold nextLabelLoop at h
    split at h
    · have := ih (i + 1) h; omega
    · split at h
      · have := ih (i + 1) h; omega
      · simp at h; omega

theorem NextLabel_lt (s : Str) (off r : Nat) (h : NextLabel s off = (r, false)) :
    off + 1 ≤ r ∧ r + 1 ≤ s.length := by
  unfold NextLabel at h
  split at h
  · simp at h
  · have := nextLabelLoop_lt s _ _ _ h
    constructor
    · exact this.1
    · omega

theorem chainMeasure_le (name : Str) : chainMeasure name < name.length + 3 := by
  unfold chainMeasure
  split
  · omega
  · split <;> omega

theorem wildcardTarget_lt (name : Str) (h : name ≠ wildcard) :
    chainMeasure (wildcardTarget name) < chainMeasure name := by
  have hpos : 0 < chainMeasure name := by
    unfold chainMeasure
    rw [if_neg h]
    split
    · rename_i hp
      simp [HasPrefix, wildcardPrefix, wildcard] at hp
      omega
    · omega
  unfold wildcardTarget
  simp only []
  cases hr : NextLabel (TrimPrefix name wildcardPrefix) 0 with
  | mk r e =>
    cases e with
    | true => simpa [chainMeasure] using hpos
    | false =>
      have hlt := NextLabel_lt _ _ _ hr
      have htgt : chainMeasure (wildcardPrefix ++ (TrimPrefix name wildcardPrefix).drop r)
          = 2 + ((TrimPrefix name wildcardPrefix).length - r) := by
        simp [chainMeasure, wildcardPrefix, wildcard, HasPrefix]
        omega
      simp only [Bool.not_false, if_true]
      rw [htgt]
      unfold chainMeasure
      rw [if_neg h]
      unfold TrimPrefix at hlt ⊢
      by_cases hp : HasPrefix name wildcardPrefix = true
      · simp only [hp, if_true] at hlt ⊢
        have h2 : wildcardPrefix.length = 2 := rfl
        simp only [List.length_drop, h2] at hlt ⊢
        omega
      · simp only [hp] at hlt ⊢
        simp only [Bool.false_eq_true, if_false] at hlt ⊢
        omega

theorem findRecordBody_congr {σ : Type} (S : Store σ)
    (f g : Str → Str → List Str → World σ → Option (FindResult σ))
    (zone name : Str) (types : List Str) (w : World σ)
    (h : name ≠ wildcard → ∀ w', f zone (wildcardTarget name) types w' =
      g zone (wildcardTarget name) types w') :
    findRecordBody S f zone name types w = findRecordBody S g zone name types w := by
  unfold findRecordBody
  split
  · rfl
  · simp only []
    split
    · rfl
    · split
      · rfl
      · split
        · rw [findWildcardRecords_eq, findWildcardRecords_eq]
          split
          · rfl
          · rename_i hn
            exact h hn _
        · rfl

theorem findRecordBody_isSome {σ : Type} (S : Store σ)
    (f : Str → Str → List Str → World σ → Option (FindResult σ))
    (zone name : Str) (types : List Str) (w : World σ)
    (h : name ≠ wildcard → ∀ w', (f zone (wildcardTarget name) types w').isSome = true) :
    (findRecordBody S f zone name types w).isSome = true := by
  unfold findRecordBody
  split
  · rfl
  · simp only []
    split
    · rfl
    · split
      · rfl
      · split
        · rw [findWildcardRecords_eq]
          split
          · rfl
          · rename_i hn
            exact h hn _
        · rfl

theorem findRecordFuel_stable {σ : Type} (S : Store σ) (zone : Str) (types : List Str)
    (f1 f2 : Nat) (name : Str) (w : World σ)
    (h1 : chainMeasure name < f1) (h2 : chainMeasure name < f2) :
    findRecordFuel S f1 zone name types w = findRecordFuel S f2 zone name types w := by
  induction f1 generalizing f2 name w with
  | zero => omega
  | succ n ih =>
    cases f2 with
    | zero => omega
    | succ m =>
      show findRecordBody S (findRecordFuel S n) zone name types w =
        findRecordBody S (findRecordFuel S m) zone name types w
      apply findRecordBody_congr
      intro hn w'
      have := wildcardTarget_lt name hn
      exact ih m _ w' (by omega) (by omega)

theorem findRecordFuel_isSome {σ : Type} (S : Store σ) (zone : Str) (types : List Str)
    (fuel : Nat) (name : Str) (w : World σ) (h : chainMeasure name < fuel) :
    (findRecordFuel S fuel zone name types w).isSome = true := by
  induction fuel generalizing name w with
  | zero => omega
  | succ n ih =>
    show (findRecordBody S (findRecordFuel S n) zone name types w).isSome = true
    apply findRecordBody_isSome
    intro hn w'
    have := wildcardTarget_lt name hn
    exact ih _ w' (by omega)

/-- The recursion bound is never exhausted: with any bound above the chain measure
of `name`, in particular any bound of at least `len(name) + 3`, the bounded run
returns, and returns the value of `findRecord`. -/
theorem findRecordFuel_enough {σ : Type} (S : Store σ) (zone name : Str)
    (types : List Str) (w : World σ) (fuel : Nat) (h : chainMeasure name < fuel) :
    findRecordFuel S fuel zone name types w = some (findRecord S zone name types w) := by
  have hs := findRecordFuel_isSome S zone types (name.length + 3) name w (chainMeasure_le name)
  have he := findRecordFuel_stable S zone types fuel (name.length + 3) name w h
    (chainMeasure_le name)
  unfold findRecord
  rw [he]
  cases hx : findRecordFuel S (name.length + 3) zone name types w with
  | none => rw [hx] at hs; simp at hs
  | some r => rfl

/-- The recursion equation of `findRecord`: its value is the body of the source
function run with `findRecord` itself for the recursive call. -/
theorem findRecord_eq {σ : Type} (S : Store σ) (zone name : Str) (types : List Str)
    (w : World σ) :
    some (findRecord S zone name types w) =
      findRecordBody S (fun z n t w' => some (findRecord S z n t w')) zone name types w := by
  rw [← findRecordFuel_enough S zone name types w (name.length + 3) (chainMeasure_le name)]
  show findRecordBody S (findRecordFuel S (name.length + 2)) zone name types w = _
  apply findRecordBody_congr
  intro hn w'
  apply findRecordFuel_enough
  have := wildcardTarget_lt name hn
  have := chainMeasure_le name
  omega

/-! ## The runs of `findRecord` -/

theorem findRecordFuel_run {σ : Type} (S : Store σ) (zone : Str) (types : List Str)
    (fuel : Nat) (name : Str) (w : World σ) (r : FindResult σ)
    (h : findRecordFuel S fuel zone name types w = some r) :
    Run S zone types name w r := by
  induction fuel generalizing name w with
  | zero => simp [findRecordFuel] at h
  | succ n ih =>
    change findRecordBody S (findRecordFuel S n) zone name types w = some r at h
    unfold findRecordBody at h
    split at h
    · rename_i err st hdb
      cases h
      exact Run.dbFail name w err st hdb
    · rename_i st hdb
      simp only [] at h
      split at h
      · rename_i err st2 hq
        cases h
        exact Run.queryFail name w err st st2 hdb hq
      · rename_i rows st2 hq
        split at h
        · rename_i err hs
          cases h
          exact Run.scanFail name w err st st2 rows hdb hq hs
        · rename_i records hs
          split at h
          · rename_i hr
            rw [findWildcardRecords_eq] at h
            split at h
            · rename_i hw
              cases h
              exact Run.exhausted name w st st2 rows records hdb hq hs hr hw
            · rename_i hw
              exact Run.fallThrough name w st st2 rows records r hdb hq hs hr hw (ih _ _ h)
          · rename_i hr
            cases h
            exact Run.found name w st st2 rows records hdb hq hs hr

/-- Every call of `findRecord` is a run. -/
theorem findRecord_run {σ : Type} (S : Store σ) (zone name : Str) (types : List Str)
    (w : World σ) : Run S zone types name w (findRecord S zone name types w) :=
  findRecordFuel_run S zone types (name.length + 3) name w _
    (findRecordFuel_enough S zone name types w _ (chainMeasure_le name))

/-- The events a run appends to the log: at most one per link of the wildcard
chain, all for the same zone and types, and an event with rows can only be the last
one, its rows being the result. -/
theorem Run.trace {σ : Type} {S : Store σ} {zone : Str} {types : List Str}
    {name : Str} {w : World σ} {r : FindResult σ} (h : Run S zone types name w r) :
    ∃ evs, r.2.log = w.log ++ evs ∧ evs.length ≤ chainMeasure name + 1 ∧
      (∀ e ∈ evs, e.lookup.zone = zone ∧ e.lookup.types = types) ∧
      (∀ pre e post rs, evs = pre ++ e :: post → e.result = .ok rs → rs ≠ [] →
        post = [] ∧ r.1 = .ok rs) := by
  induction h with
  | dbFail name w err st hdb =>
    exact ⟨[], by simp, by simp, by simp, by simp⟩
  | queryFail name w err st st2 hdb hq =>
    refine ⟨[eventOf zone name types (.error err)], rfl, by simp, by simp [eventOf], ?_⟩
    intro pre e post rs he hres
    cases pre with
    | nil => simp at he; rw [← he.1] at hres; simp [eventOf] at hres
    | cons a pre => simp at he
  | scanFail name w err st st2 rows hdb hq hs =>
    refine ⟨[eventOf zone name types (.error err)], rfl, by simp, by simp [eventOf], ?_⟩
    intro pre e post rs he hres
    cases pre with
    | nil => simp at he; rw [← he.1] at hres; simp [eventOf] at hres
    | cons a pre => simp at he
  | found name w st st2 rows records hdb hq hs hr =>
    refine ⟨[eventOf zone name types (.ok records)], rfl, by simp, by simp [eventOf], ?_⟩
    intro pre e post rs he hres _
    cases pre with
    | nil =>
      simp at he
      rw [← he.1] at hres
      simp only [eventOf, Except.ok.injEq] at hres
      exact ⟨he.2, by rw [hres]⟩
    | cons a pre => simp at he
  | exhausted name w st st2 rows records hdb hq hs hr hw =>
    refine ⟨[eventOf zone name types (.ok records)], rfl, by simp, by simp [eventOf], ?_⟩
    intro pre e post rs he hres hne
    cases pre with
    | nil =>
      simp at he
      rw [← he.1] at hres
      simp only [eventOf, Except.ok.injEq] at hres
      have := hr.1
      rw [hres] at this
      exact absurd (List.length_eq_zero.mp this) hne
    | cons a pre => simp at he
  | fallThrough name w st st2 rows records r hdb hq hs hr hw hrec ih =>
    obtain ⟨evs, hlog, hlen, hall, hstop⟩ := ih
    refine ⟨eventOf zone name types (.ok records) :: evs, ?_, ?_, ?_, ?_⟩
    · rw [hlog]; simp
    · have := wildcardTarget_lt name hw
      simp only [List.length_cons]
      omega
    · intro e he
      rcases List.mem_cons.mp he with rfl | he
      · simp [eventOf]
      · exact hall e he
    · intro pre e post rs he hres hne
      cases pre with
      | nil =>
        simp at he
        rw [← he.1] at hres
        simp only [eventOf, Except.ok.injEq] at hres
        have := hr.1
        rw [hres] at this
        exact absurd (List.length_eq_zero.mp this) hne
      | cons a pre =>
        simp only [List.cons_append, List.cons.injEq] at he
        exact hstop pre e post rs he.2 hres hne

/-- With a store that never fails and never has rows, a run ends with an empty result
and no error. -/
theorem Run.empty_of_noRows {σ : Type} {S : Store σ} {zone : Str} {types : List Str}
    {name : Str} {w : World σ} {r : FindResult σ} (h : Run S zone types name w r)
    (hdb : ∀ s, (S.db s).1 = none) (hq : ∀ l s, (S.Query l s).1 = .ok []) :
    r.1 = .ok [] := by
  induction h with
  | dbFail name w err st hdb' => have := hdb w.st; rw [hdb'] at this; simp at this
  | queryFail name w err st st2 hdb' hq' =>
    have := hq ⟨zone, relativeName zone name, types⟩ st; rw [hq'] at this; simp at this
  | scanFail name w err st st2 rows hdb' hq' hs =>
    have := hq ⟨zone, relativeName zone name, types⟩ st
    rw [hq'] at this
    simp only [Except.ok.injEq] at this
    rw [this] at hs
    simp [scanRows] at hs
  | found name w st st2 rows records hdb' hq' hs hr =>
    have := hq ⟨zone, relativeName zone name, types⟩ st
    rw [hq'] at this
    simp only [Except.ok.injEq] at this
    rw [this] at hs
    simp only [scanRows, Except.ok.injEq] at hs
    rw [← hs]
  | exhausted name w st st2 rows records hdb' hq' hs hr hw => rfl
  | fallThrough name w st st2 rows records r hdb' hq' hs hr hw hrec ih => exact ih

/-- With a store on which no call fails (the connection opens, the query runs, every
row scans), a run ends without error. -/
theorem Run.ok_of_noFailure {σ : Type} {S : Store σ} {zone : Str} {types : List Str}
    {name : Str} {w : World σ} {r : FindResult σ} (h : Run S zone types name w r)
    (hdb : ∀ s, (S.db s).1 = none)
    (hq : ∀ l s, ∃ rows rs, (S.Query l s).1 = .ok rows ∧ scanRows rows [] = .ok rs) :
    ∃ rs, r.1 = .ok rs := by
  induction h with
  | dbFail name w err st hdb' => have := hdb w.st; rw [hdb'] at this; simp at this
  | queryFail name w err st st2 hdb' hq' =>
    obtain ⟨rows, rs, h1, _⟩ := hq ⟨zone, relativeName zone name, types⟩ st
    rw [hq'] at h1; simp at h1
  | scanFail name w err st st2 rows hdb' hq' hs =>
    obtain ⟨rows', rs, h1, h2⟩ := hq ⟨zone, relativeName zone name, types⟩ st
    rw [hq'] at h1
    simp only [Except.ok.injEq] at h1
    rw [← h1, hs] at h2
    simp at h2
  | found name w st st2 rows records hdb' hq' hs hr => exact ⟨records, rfl⟩
  | exhausted name w st st2 rows records hdb' hq' hs hr hw => exact ⟨[], rfl⟩
  | fallThrough name w st st2 rows records r hdb' hq' hs hr hw hrec ih => exact ih

/-- When the connection opens, the first lookup of a run is for the owner name
`relativeName zone name`. -/
theorem Run.first_lookup {σ : Type} {S : Store σ} {zone : Str} {types : List Str}
    {name : Str} {w : World σ} {r : FindResult σ} (h : Run S zone types name w r)
    (hdb : (S.db w.st).1 = none) :
    ∃ e rest, r.2.log = w.log ++ e :: rest ∧
      e.lookup = ⟨zone, relativeName zone name, types⟩ := by
  cases h with
  | dbFail _ _ err st hdb' => rw [hdb'] at hdb; simp at hdb
  | queryFail _ _ err st st2 hdb' hq => exact ⟨_, [], rfl, rfl⟩
  | scanFail _ _ err st st2 rows hdb' hq hs => exact ⟨_, [], rfl, rfl⟩
  | found _ _ st st2 rows records hdb' hq hs hr => exact ⟨_, [], rfl, rfl⟩
  | exhausted _ _ st st2 rows records hdb' hq hs hr hw => exact ⟨_, [], rfl, rfl⟩
  | fallThrough _ _ st st2 rows records _ hdb' hq hs hr hw hrec =>
    obtain ⟨evs, hlog, _⟩ := hrec.trace
    exact ⟨eventOf zone name types (.ok records), evs, by rw [hlog]; simp, rfl⟩

theorem TrimSuffix_append (o suffix : Str) : TrimSuffix (o ++ suffix) suffix = o := by
  have h : HasSuffix (o ++ suffix) suffix = true := by
    simp [HasSuffix]
  simp [TrimSuffix, h]

/-- C8: for every store, zone, name and types, the recursion of `findRecord` through
`findWildcardRecords` ends: every recursion bound of at least `len(name) + 3` gives the
value of `findRecord`.  The run appends at most `len(name) + 3` lookups to the log; a
lookup that returned rows is the last one of the run and its rows are the result; and
when the store never fails and never has rows the result is empty with a nil error. -/
theorem findRecord_terminates {σ : Type} (S : Store σ) (zone name : Str)
    (types : List Str) (w : World σ) :
    (∀ fuel, name.length + 3 ≤ fuel →
      findRecordFuel S fuel zone name types w = some (findRecord S zone name types w)) ∧
    (∃ evs, (findRecord S zone name types w).2.log = w.log ++ evs ∧
      evs.length ≤ name.length + 3 ∧
      ∀ pre e post rs, evs = pre ++ e :: post → e.result = .ok rs → rs ≠ [] →
        post = [] ∧ (findRecord S zone name types w).1 = .ok rs) ∧
    ((∀ s, (S.db s).1 = none) → (∀ l s, (S.Query l s).1 = .ok []) →
      (findRecord S zone name types w).1 = .ok []) := by
  have hrun := findRecord_run S zone name types w
  refine ⟨?_, ?_, ?_⟩
  · intro fuel hf
    apply findRecordFuel_enough
    have := chainMeasure_le name
    omega
  · obtain ⟨evs, hlog, hlen, _, hstop⟩ := hrun.trace
    refine ⟨evs, hlog, ?_, hstop⟩
    have := chainMeasure_le name
    omega
  · intro hdb hq
    exact hrun.empty_of_noRows hdb hq

/-! ## The wildcard chain on a concrete zone -/

/-- C2: for the name `a.b.c.example.com.` in zone `example.com.` and a store without
rows, `findRecord` returns an empty result without error, but the owner names it looks
up are `a.b.c`, `*.b.c`, `*.c`, `*`, `*.com.`, `*`: the chain goes on past the zone
apex and looks `*` up twice. -/
theorem findRecord_chain_past_apex :
    (findRecord emptyStore exampleZone "a.b.c.example.com.".toList ["A".toList] ⟨(), []⟩).1
        = .ok [] ∧
      lookupNames
        (findRecord emptyStore exampleZone "a.b.c.example.com.".toList ["A".toList] ⟨(), []⟩).2.log
        = ["a.b.c".toList, "*.b.c".toList, "*.c".toList, "*".toList, "*.com.".toList,
            "*".toList] ∧
      (lookupNames
        (findRecord emptyStore exampleZone "a.b.c.example.com.".toList ["A".toList]
          ⟨(), []⟩).2.log).count "*".toList = 2 := by
  refine ⟨rfl, ?_, ?_⟩ <;> decide

/-- C10: with a store without rows, `findRecord(zone, zone, "SOA")` issues one lookup
(owner name empty), but the call `findRecord(zone, "", "SOA")` of the negative-answer
path issues a second one for the owner name `*`. -/
theorem findRecord_apex_soa_falls_through :
    lookupNames (findRecord emptyStore exampleZone exampleZone ["SOA".toList] ⟨(), []⟩).2.log
        = [[]] ∧
      lookupNames (findRecord emptyStore exampleZone [] ["SOA".toList] ⟨(), []⟩).2.log
        = [[], "*".toList] := by
  constructor <;> decide

/-! ## The owner name bound to the store query -/

/-- C6, as amended: for every zone and every owner name `o`, the owner name computed
for the query name `o + "." + zone` is `o`, and for the query name `zone` itself it is
the empty string; and this computed name is the one bound to the first store query of
`findRecord`. -/
theorem relativeName_strips_zone (zone o : Str) :
    relativeName zone (o ++ ['.'] ++ zone) = o ∧ relativeName zone zone = [] ∧
    ∀ (σ : Type) (S : Store σ) (name : Str) (types : List Str) (w : World σ),
      (S.db w.st).1 = none →
      ∃ e rest, (findRecord S zone name types w).2.log = w.log ++ e :: rest ∧
        e.lookup = ⟨zone, relativeName zone name, types⟩ := by
  refine ⟨?_, ?_, ?_⟩
  · have hne : o ++ ['.'] ++ zone ≠ zone := by
      intro h
      have := congrArg List.length h
      simp at this
      omega
    unfold relativeName
    rw [if_pos hne, List.append_assoc]
    exact TrimSuffix_append o (['.'] ++ zone)
  · simp [relativeName]
  · intro σ S name types w hdb
    exact (findRecord_run S zone name types w).first_lookup hdb

/-- C6, counterexample: the root zone `.` is a label-aligned suffix of the name `com.`
(it is the zone `Matches` selects), and the owner name bound to the store query is then
the whole name `com.`: not the name without its zone suffix, and not a name `o` with
`o + "." + "." = "com."`. -/
theorem relativeName_root_zone :
    relativeName ['.'] "com.".toList = "com.".toList ∧
      labelSuffix ['.'] "com.".toList ∧
      IsSubDomain ['.'] "com.".toList = true ∧
      Matches [['.']] "com.".toList = ['.'] ∧
      relativeName ['.'] "com.".toList ≠ "com".toList ∧
      relativeName ['.'] "com.".toList ++ ['.'] ++ ['.'] ≠ "com.".toList ∧
      lookupNames (findRecord emptyStore ['.'] "com.".toList ["A".toList] ⟨(), []⟩).2.log
        = ["com.".toList, "*".toList] := by
  decide

/-! ## The reply of `ServeDNS` -/

/-- Rows that all scan are returned as they are, in the order of the store. -/
theorem scanRows_map_ok {α : Type} (xs acc : List α) :
    scanRows (xs.map Except.ok) acc = (Except.ok (acc ++ xs) : Except GoError (List α)) := by
  induction xs generalizing acc with
  | nil => simp [scanRows]
  | cons x xs ih => simp [scanRows, ih]

theorem relativeName_nil (zone : Str) : relativeName zone [] = [] := by
  unfold relativeName
  split
  · simp [TrimSuffix, HasSuffix]
  · rfl

theorem relativeName_self (zone : Str) : relativeName zone zone = [] := by
  simp [relativeName]

/-- A lookup that returns rows, or a lookup for the zone name itself, ends the call. -/
theorem findRecord_found {σ : Type} (S : Store σ) (zone name : Str) (types : List Str)
    (w : World σ) (st st2 : σ) (rows : List (Except GoError Record)) (records : List Record)
    (hdb : S.db w.st = (none, st))
    (hq : S.Query ⟨zone, relativeName zone name, types⟩ st = (.ok rows, st2))
    (hs : scanRows rows [] = .ok records)
    (hr : ¬ (records.length = 0 ∧ name ≠ zone)) :
    findRecord S zone name types w =
      (.ok records, ⟨st2, w.log ++ [eventOf zone name types (.ok records)]⟩) := by
  have h := findRecord_eq S zone name types w
  unfold findRecordBody at h
  rw [hdb] at h
  simp only [] at h
  rw [hq] at h
  simp only [] at h
  rw [hs] at h
  simp only [] at h
  rw [if_neg hr] at h
  exact Option.some.inj h

theorem translateLoop_noError {RR : Type} (T : Translator RR) (records : List Record)
    (answers extras : List RR) (h : ∀ r ∈ records, translatesNoError T r = true) :
    translateLoop T records answers extras =
      .ok (answers ++ records.filterMap (answerOf T),
        ((records.getLast?).map (extrasOf T)).getD extras) := by
  induction records generalizing answers extras with
  | nil => simp [translateLoop]
  | cons r rest ih =>
    have hr := h r (List.mem_cons_self _ _)
    have hrest : ∀ x ∈ rest, translatesNoError T x = true :=
      fun x hx => h x (List.mem_cons_of_mem _ hx)
    have hlast : ∀ ex : List RR,
        (((rest.getLast?).map (extrasOf T)).getD ex = (((r :: rest).getLast?).map
          (extrasOf T)).getD extras) ∨ (rest = [] ∧ ((((r :: rest).getLast?).map
          (extrasOf T)).getD extras) = extrasOf T r) := by
      intro ex
      cases rest with
      | nil => right; simp
      | cons y ys =>
        left
        rw [List.getLast?_cons_cons, List.getLast?_eq_getLast (y :: ys) (by simp)]
        rfl
    unfold translatesNoError at hr
    cases ht : translate T r with
    | none => rw [ht] at hr; simp at hr
    | some t =>
      obtain ⟨ans, ex, er⟩ := t
      rw [ht] at hr
      cases er with
      | some e => simp at hr
      | none =>
        have hex : ((rest.getLast?).map (extrasOf T)).getD ex =
            (((r :: rest).getLast?).map (extrasOf T)).getD extras := by
          rcases hlast ex with h1 | ⟨h1, h2⟩
          · exact h1
          · rw [h2, h1]
            simp [extrasOf, ht]
        cases ans with
        | none =>
          simp only [translateLoop, ht]
          rw [ih answers ex hrest, hex]
          simp [answerOf, ht]
        | some a =>
          simp only [translateLoop, ht]
          rw [ih (answers ++ [a]) ex hrest, hex]
          simp [answerOf, ht]

theorem translateLoop_ok {RR : Type} (T : Translator RR) (records : List Record)
    (answers extras : List RR) (h : ∀ r ∈ records, translatesOk T r = true) :
    ∃ answers' extras', translateLoop T records answers extras = .ok (answers', extras') ∧
      answers'.map some = answers.map some ++ records.map (answerOf T) ∧
      extras' = ((records.getLast?).map (extrasOf T)).getD extras := by
  induction records generalizing answers extras with
  | nil => exact ⟨answers, extras, rfl, by simp, by simp⟩
  | cons r rest ih =>
    have hr := h r (List.mem_cons_self _ _)
    have hrest : ∀ x ∈ rest, translatesOk T x = true :=
      fun x hx => h x (List.mem_cons_of_mem _ hx)
    unfold translatesOk at hr
    cases ht : translate T r with
    | none => rw [ht] at hr; simp at hr
    | some t =>
      obtain ⟨ans, ex, er⟩ := t
      rw [ht] at hr
      cases ans with
      | none => simp at hr
      | some a =>
        cases er with
        | some e => simp at hr
        | none =>
          obtain ⟨answers', extras', h1, h2, h3⟩ := ih (answers ++ [a]) ex hrest
          refine ⟨answers', extras', ?_, ?_, ?_⟩
          · simp only [translateLoop, ht]
            exact h1
          · rw [h2]
            simp [answerOf, ht]
          · rw [h3]
            cases rest with
            | nil => simp [extrasOf, ht]
            | cons y ys =>
              rw [List.getLast?_cons_cons, List.getLast?_eq_getLast (y :: ys) (by simp)]
              rfl

theorem translate_of_method {RR : Type} (T : Translator RR) (r : Record)
    (m : Str × (Record → Translation RR)) (hm : m ∈ translatorMethods T)
    (h : m.1 = r.RecordType) : translate T r = some (m.2 r) := by
  simp only [translatorMethods, List.mem_cons, List.mem_singleton, List.not_mem_nil,
    or_false] at hm
  unfold translate
  rcases hm with rfl | rfl | rfl | rfl | rfl | rfl | rfl | rfl | rfl <;>
    (rw [← h]; rfl)

theorem filterMap_eq_map_of_some {α β : Type} (g : α → Option β) (f : α → β) (l : List α)
    (h : ∀ x ∈ l, g x = some (f x)) : l.filterMap g = l.map f := by
  induction l with
  | nil => rfl
  | cons x xs ih =>
    have hx := h x (List.mem_cons_self _ _)
    have hxs : ∀ y ∈ xs, g y = some (f y) := fun y hy => h y (List.mem_cons_of_mem _ hy)
    simp [List.filterMap_cons, hx, ih hxs]

/-- C7: for a query of a type other than SOA and AXFR in a matched zone, when the
first lookup returns a non-empty record list and every record `r` of it translates
without error, that is, the method for its record type returns the answer `f r` and a
nil error, the handler writes a reply with rcode success, an empty authority section
and the answer section `f r1, ..., f rn`: one answer per record, in the order of the
records. -/
theorem ServeDNS_positive_answer {σ RR : Type} (S : Store σ) (T : Translator RR)
    (handler handler' : Handler) (stale : Bool) (qName qType : Str) (w w0 w1 : World σ)
    (records : List Record) (f : Record → RR)
    (hload : (if stale then loadZones S handler w else (none, handler, w))
      = (none, handler', w0))
    (hzone : Matches handler'.zones qName ≠ [])
    (hSOA : qType ≠ "SOA".toList) (hAXFR : qType ≠ "AXFR".toList)
    (hfind : findRecord S (Matches handler'.zones qName) qName [qType] w0 = (.ok records, w1))
    (hne : records ≠ [])
    (htr : ∀ r ∈ records, ∃ m ∈ translatorMethods T,
      m.1 = r.RecordType ∧ (m.2 r).err = none ∧ (m.2 r).answer = some (f r)) :
    ∃ extras, (ServeDNS S T handler stale qName qType w).outcome =
      .wrote ⟨RcodeSuccess, true, false, true, records.map f, [], extras⟩ RcodeSuccess none := by
  have hans : ∀ r ∈ records, translatesNoError T r = true ∧ answerOf T r = some (f r) := by
    intro r hr
    obtain ⟨m, hm, h1, h2, h3⟩ := htr r hr
    have ht := translate_of_method T r m hm h1
    unfold translatesNoError answerOf
    rw [ht]
    constructor
    · generalize m.2 r = t at h2 h3
      obtain ⟨a, e, er⟩ := t
      simp only [] at h2
      subst h2
      rfl
    · simpa using h3
  have h1 := translateLoop_noError T records [] [] (fun r hr => (hans r hr).1)
  have h2 := filterMap_eq_map_of_some (answerOf T) f records (fun r hr => (hans r hr).2)
  have hlen : ¬ records.length = 0 := fun h => hne (List.length_eq_zero.mp h)
  have hS : ¬ qType = ['S', 'O', 'A'] := hSOA
  have hA : ¬ qType = ['A', 'X', 'F', 'R'] := hAXFR
  refine ⟨((records.getLast?).map (extrasOf T)).getD [], ?_⟩
  unfold ServeDNS
  rw [hload]
  simp only []
  rw [if_neg hzone, hfind]
  simp only []
  rw [if_neg hlen]
  unfold serveRecords
  rw [if_neg hS]
  simp only []
  rw [if_neg hA, h1, h2]
  simp [buildReply]

/-- C7, witness: the query `www.example.com.`/A in the example zone is answered with
the one address record of `www`. -/
theorem ServeDNS_positive_answer_witness :
    ∃ extras, (ServeDNS (tableStore exampleRows) exampleTranslator ⟨[exampleZone]⟩ false
        "www.example.com.".toList "A".toList ⟨(), []⟩).outcome =
      .wrote ⟨RcodeSuccess, true, false, true, [wwwRow], [], extras⟩ RcodeSuccess none :=
  ServeDNS_positive_answer (tableStore exampleRows) exampleTranslator ⟨[exampleZone]⟩
    ⟨[exampleZone]⟩ false "www.example.com.".toList "A".toList ⟨(), []⟩ ⟨(), []⟩
    ⟨(), [⟨⟨exampleZone, "www".toList, ["A".toList]⟩, .ok [wwwRow]⟩]⟩ [wwwRow] id
    rfl (by decide) (by decide) (by decide) rfl (by decide)
    (fun r hr => ⟨("A".toList, exampleTranslator.AsARecord), by simp [translatorMethods],
      by
        rw [List.mem_singleton.mp hr]
        exact ⟨rfl, rfl, rfl⟩⟩)

/-- C3, as amended: for a query of a type other than SOA and AXFR in a matched zone,
when the first lookup (wildcard fallback included) returns no records and the lookup of
the SOA at the zone apex then returns one record that translates, the handler writes a
reply with rcode name-error, an empty answer section and an authority section that is
exactly the translated SOA record. -/
theorem ServeDNS_negative_answer {σ RR : Type} (S : Store σ) (T : Translator RR)
    (handler handler' : Handler) (stale : Bool) (qName qType : Str) (w w0 w1 : World σ)
    (st st2 : σ) (rows : List (Except GoError Record)) (soa : Record) (rr : RR)
    (extras : List RR)
    (hload : (if stale then loadZones S handler w else (none, handler, w))
      = (none, handler', w0))
    (hzone : Matches handler'.zones qName ≠ [])
    (hSOA : qType ≠ ['S', 'O', 'A']) (hAXFR : qType ≠ ['A', 'X', 'F', 'R'])
    (hfind : findRecord S (Matches handler'.zones qName) qName [qType] w0 = (.ok [], w1))
    (hdb : S.db w1.st = (none, st))
    (hq : S.Query ⟨Matches handler'.zones qName, [], [['S', 'O', 'A']]⟩ st = (.ok rows, st2))
    (hs : scanRows rows [] = .ok [soa])
    (htr : translate T soa = some ⟨some rr, extras, none⟩) :
    (ServeDNS S T handler stale qName qType w).outcome =
      .wrote ⟨RcodeNameError, true, false, true, [], [rr], extras⟩ RcodeSuccess none := by
  have hsoa := findRecord_found S (Matches handler'.zones qName) [] [['S', 'O', 'A']] w1 st st2
    rows [soa] hdb (by rw [relativeName_nil]; exact hq) hs (by simp)
  unfold ServeDNS
  rw [hload]
  simp only []
  rw [if_neg hzone, hfind]
  simp only [List.length_nil, if_true]
  rw [hsoa]
  simp only []
  unfold serveRecords
  rw [if_neg hSOA]
  simp only []
  rw [if_neg hAXFR]
  simp [translateLoop, htr, buildReply]

/-- C3, witness: the query `missing.example.com.`/A in the example zone. -/
theorem ServeDNS_negative_answer_witness :
    (ServeDNS (tableStore exampleRows) exampleTranslator ⟨[exampleZone]⟩ false
        "missing.example.com.".toList "A".toList ⟨(), []⟩).outcome =
      .wrote ⟨RcodeNameError, true, false, true, [], [soaRow], []⟩ RcodeSuccess none :=
  ServeDNS_negative_answer (tableStore exampleRows) exampleTranslator ⟨[exampleZone]⟩
    ⟨[exampleZone]⟩ false "missing.example.com.".toList "A".toList ⟨(), []⟩ ⟨(), []⟩
    (findRecord (tableStore exampleRows) exampleZone "missing.example.com.".toList
      ["A".toList] ⟨(), []⟩).2
    () () [.ok soaRow] soaRow soaRow []
    rfl (by decide) (by decide) (by decide) rfl rfl rfl rfl rfl

/-- C3, counterexample: in the example zone, where no lookup fails and every record
translates, the query `missing.example.com.`/AXFR finds no records and is answered with
rcode not-implemented and an empty authority section, and the query
`sub.example.com.`/SOA finds no records and is answered with an authority section that
holds the name-server record of `sub` after the SOA record. -/
theorem negative_answer_for_axfr_and_soa :
    (ServeDNS (tableStore exampleRows) exampleTranslator ⟨[exampleZone]⟩ false
        "missing.example.com.".toList "AXFR".toList ⟨(), []⟩).outcome =
      .wrote ⟨RcodeNotImplemented, true, false, true, [], [], []⟩ RcodeSuccess none ∧
    (findRecord (tableStore exampleRows) exampleZone "missing.example.com.".toList
        ["AXFR".toList] ⟨(), []⟩).1 = .ok [] ∧
    (ServeDNS (tableStore exampleRows) exampleTranslator ⟨[exampleZone]⟩ false
        "sub.example.com.".toList "SOA".toList ⟨(), []⟩).outcome =
      .wrote ⟨RcodeNameError, true, false, true, [], [soaRow, subNsRow],
        extrasOf exampleTranslator subNsRow⟩ RcodeSuccess none ∧
    (findRecord (tableStore exampleRows) exampleZone "sub.example.com.".toList
        ["SOA".toList] ⟨(), []⟩).1 = .ok [] := by
  refine ⟨rfl, rfl, rfl, rfl⟩

/-- C4, as amended: for a query of type SOA whose name is the matched zone itself,
when the lookup of the SOA at the apex returns a non-empty record list, the lookup of the
name servers at the apex does not fail and all these records translate, the handler
writes a reply with rcode success and an empty authority section whose answers are the
translations of the SOA records followed by those of the name-server records of the
apex. -/
theorem ServeDNS_soa_at_apex {σ RR : Type} (S : Store σ) (T : Translator RR)
    (handler handler' : Handler) (stale : Bool) (qName : Str) (w w0 : World σ)
    (st1 st2 st3 st4 : σ) (rows1 rows2 : List (Except GoError Record))
    (soas nss : List Record)
    (hload : (if stale then loadZones S handler w else (none, handler, w))
      = (none, handler', w0))
    (hzone : Matches handler'.zones qName = qName) (hq : qName ≠ [])
    (hdb1 : S.db w0.st = (none, st1))
    (hq1 : S.Query ⟨qName, [], [['S', 'O', 'A']]⟩ st1 = (.ok rows1, st2))
    (hs1 : scanRows rows1 [] = .ok soas) (hne : soas ≠ [])
    (hdb2 : S.db st2 = (none, st3))
    (hq2 : S.Query ⟨qName, [], [['N', 'S']]⟩ st3 = (.ok rows2, st4))
    (hs2 : scanRows rows2 [] = .ok nss)
    (htr : ∀ r ∈ soas ++ nss, translatesOk T r = true) :
    ∃ m, (ServeDNS S T handler stale qName ['S', 'O', 'A'] w).outcome
        = .wrote m RcodeSuccess none ∧
      m.Rcode = RcodeSuccess ∧ m.Ns = [] ∧
      m.Answer.map some = (soas ++ nss).map (answerOf T) := by
  obtain ⟨answers, extras, h1, h2, _⟩ := translateLoop_ok T (soas ++ nss) [] [] htr
  have hlen : ¬ soas.length = 0 := fun h => hne (List.length_eq_zero.mp h)
  have hsoa := findRecord_found S qName qName [['S', 'O', 'A']] w0 st1 st2 rows1 soas hdb1
    (by rw [relativeName_self]; exact hq1) hs1 (by simp)
  have hns := findRecord_found S qName qName [['N', 'S']]
    ⟨st2, w0.log ++ [eventOf qName qName [['S', 'O', 'A']] (.ok soas)]⟩ st3 st4 rows2 nss hdb2
    (by rw [relativeName_self]; exact hq2) hs2 (by simp)
  refine ⟨buildReply false answers extras, ?_, rfl, rfl, ?_⟩
  · unfold ServeDNS
    rw [hload]
    simp only []
    rw [hzone, if_neg hq, hsoa]
    simp only []
    rw [if_neg hlen]
    unfold serveRecords
    rw [if_pos rfl, hns]
    simp only []
    rw [if_neg (by decide), h1]
  · simpa [buildReply] using h2

/-- C4, witness: the query `example.com.`/SOA in the example zone. -/
theorem ServeDNS_soa_at_apex_witness :
    ∃ m, (ServeDNS (tableStore exampleRows) exampleTranslator ⟨[exampleZone]⟩ false
        exampleZone ['S', 'O', 'A'] ⟨(), []⟩).outcome = .wrote m RcodeSuccess none ∧
      m.Rcode = RcodeSuccess ∧ m.Ns = [] ∧
      m.Answer.map some = ([soaRow] ++ [ns1Row, ns2Row]).map (answerOf exampleTranslator) :=
  ServeDNS_soa_at_apex (tableStore exampleRows) exampleTranslator ⟨[exampleZone]⟩
    ⟨[exampleZone]⟩ false exampleZone ⟨(), []⟩ ⟨(), []⟩ () () () ()
    [.ok soaRow] [.ok ns1Row, .ok ns2Row] [soaRow] [ns1Row, ns2Row]
    rfl (by decide) (by decide) rfl rfl rfl (by decide) rfl rfl rfl (by decide)

/-- C4, counterexample: in the example zone, whose apex holds a SOA record and two
name-server records, the query `www.example.com.`/SOA is answered with the SOA record
alone, in the authority section of a name-error reply: the name servers are looked up
at the queried name, not at the apex. -/
theorem ServeDNS_soa_below_apex :
    (ServeDNS (tableStore exampleRows) exampleTranslator ⟨[exampleZone]⟩ false
        "www.example.com.".toList "SOA".toList ⟨(), []⟩).outcome =
      .wrote ⟨RcodeNameError, true, false, true, [], [soaRow], []⟩ RcodeSuccess none ∧
    ((tableStore exampleRows).Query ⟨exampleZone, [], ["NS".toList]⟩ ()).1
      = .ok [.ok ns1Row, .ok ns2Row] ∧
    lookupNames ((ServeDNS (tableStore exampleRows) exampleTranslator ⟨[exampleZone]⟩ false
        "www.example.com.".toList "SOA".toList ⟨(), []⟩).world.log.filter
          (fun e => e.lookup.types == ["NS".toList]))
      = ["www".toList, "*".toList, "*.com.".toList, "*".toList] := by
  refine ⟨rfl, rfl, ?_⟩
  decide

theorem findRecord_dbFail {σ : Type} (S : Store σ) (zone name : Str) (types : List Str)
    (w : World σ) (err : GoError) (st : σ) (hdb : S.db w.st = (some err, st)) :
    findRecord S zone name types w = (.error err, ⟨st, w.log⟩) := by
  have h := findRecord_eq S zone name types w
  unfold findRecordBody at h
  rw [hdb] at h
  exact Option.some.inj h

theorem findRecord_queryFail {σ : Type} (S : Store σ) (zone name : Str) (types : List Str)
    (w : World σ) (err : GoError) (st st2 : σ) (hdb : S.db w.st = (none, st))
    (hq : S.Query ⟨zone, relativeName zone name, types⟩ st = (.error err, st2)) :
    findRecord S zone name types w =
      (.error err, ⟨st2, w.log ++ [eventOf zone name types (.error err)]⟩) := by
  have h := findRecord_eq S zone name types w
  unfold findRecordBody at h
  rw [hdb] at h
  simp only [] at h
  rw [hq] at h
  exact Option.some.inj h

theorem findRecord_scanFail {σ : Type} (S : Store σ) (zone name : Str) (types : List Str)
    (w : World σ) (err : GoError) (st st2 : σ) (rows : List (Except GoError Record))
    (hdb : S.db w.st = (none, st))
    (hq : S.Query ⟨zone, relativeName zone name, types⟩ st = (.ok rows, st2))
    (hs : scanRows rows [] = .error err) :
    findRecord S zone name types w =
      (.error err, ⟨st2, w.log ++ [eventOf zone name types (.error err)]⟩) := by
  have h := findRecord_eq S zone name types w
  unfold findRecordBody at h
  rw [hdb] at h
  simp only [] at h
  rw [hq] at h
  simp only [] at h
  rw [hs] at h
  exact Option.some.inj h

theorem serveRecords_axfr {σ RR : Type} (S : Store σ) (T : Translator RR)
    (handler : Handler) (qZone qName : Str) (b : Bool) (records : List Record)
    (w : World σ) :
    (serveRecords S T handler qZone qName ['A', 'X', 'F', 'R'] b records w).outcome =
      .wrote ⟨RcodeNotImplemented, true, false, true, [], [], []⟩ RcodeSuccess none := by
  unfold serveRecords
  rw [if_neg (by decide)]
  simp only [if_true]
  rfl

/-- The reply to a query of type AXFR in a matched zone, by the results of the two
lookups that come before the AXFR check. -/
theorem ServeDNS_axfr_cases {σ RR : Type} (S : Store σ) (T : Translator RR)
    (handler handler' : Handler) (stale : Bool) (qName : Str) (w w0 : World σ)
    (hload : (if stale then loadZones S handler w else (none, handler, w))
      = (none, handler', w0))
    (hzone : Matches handler'.zones qName ≠ []) :
    (ServeDNS S T handler stale qName ['A', 'X', 'F', 'R'] w).outcome =
      match findRecord S (Matches handler'.zones qName) qName [['A', 'X', 'F', 'R']] w0 with
      | (.error err, _) =>
        .wrote ⟨RcodeServerFailure, true, false, true, [], [], []⟩ RcodeSuccess (some err)
      | (.ok records, w1) =>
        if records.length = 0 then
          match findRecord S (Matches handler'.zones qName) [] [['S', 'O', 'A']] w1 with
          | (.error err, _) =>
            .wrote ⟨RcodeServerFailure, true, false, true, [], [], []⟩ RcodeSuccess (some err)
          | (.ok _, _) =>
            .wrote ⟨RcodeNotImplemented, true, false, true, [], [], []⟩ RcodeSuccess none
        else .wrote ⟨RcodeNotImplemented, true, false, true, [], [], []⟩ RcodeSuccess none := by
  unfold ServeDNS
  rw [hload]
  simp only []
  rw [if_neg hzone]
  cases hf : findRecord S (Matches handler'.zones qName) qName [['A', 'X', 'F', 'R']] w0 with
  | mk res w1 =>
    cases res with
    | error err => rfl
    | ok records =>
      simp only []
      split
      · cases hf2 : findRecord S (Matches handler'.zones qName) [] [['S', 'O', 'A']] w1 with
        | mk res2 w2 =>
          cases res2 with
          | error err => rfl
          | ok recs => exact serveRecords_axfr S T _ _ _ _ _ _
      · exact serveRecords_axfr S T _ _ _ _ _ _

/-- C5, as amended: for a query of type AXFR in a matched zone, the reply has rcode
not-implemented when no call to the store fails during the request, and more generally
when the first lookup returns records, or returns none and the lookup of the SOA at the
apex returns without error.  The reply has rcode server-failure, with the error of the
lookup, when the first lookup returns an error (the connection cannot be opened, the
query fails or a row cannot be scanned), or returns no records and the lookup of the SOA
at the apex returns an error. -/
theorem ServeDNS_axfr_reply {σ RR : Type} (S : Store σ) (T : Translator RR)
    (handler handler' : Handler) (stale : Bool) (qName : Str) (w w0 : World σ)
    (hload : (if stale then loadZones S handler w else (none, handler, w))
      = (none, handler', w0))
    (hzone : Matches handler'.zones qName ≠ []) :
    ((∀ s, (S.db s).1 = none) →
      (∀ l s, ∃ rows rs, (S.Query l s).1 = .ok rows ∧ scanRows rows [] = .ok rs) →
      (ServeDNS S T handler stale qName "AXFR".toList w).outcome =
        .wrote ⟨RcodeNotImplemented, true, false, true, [], [], []⟩ RcodeSuccess none) ∧
    (∀ records w1,
      findRecord S (Matches handler'.zones qName) qName ["AXFR".toList] w0 = (.ok records, w1) →
      (records ≠ [] ∨ ∃ recs w2,
        findRecord S (Matches handler'.zones qName) [] ["SOA".toList] w1 = (.ok recs, w2)) →
      (ServeDNS S T handler stale qName "AXFR".toList w).outcome =
        .wrote ⟨RcodeNotImplemented, true, false, true, [], [], []⟩ RcodeSuccess none) ∧
    (∀ err w1,
      findRecord S (Matches handler'.zones qName) qName ["AXFR".toList] w0 = (.error err, w1) →
      (ServeDNS S T handler stale qName "AXFR".toList w).outcome =
        .wrote ⟨RcodeServerFailure, true, false, true, [], [], []⟩ RcodeSuccess (some err)) ∧
    (∀ err w1 w2,
      findRecord S (Matches handler'.zones qName) qName ["AXFR".toList] w0 = (.ok [], w1) →
      findRecord S (Matches handler'.zones qName) [] ["SOA".toList] w1 = (.error err, w2) →
      (ServeDNS S T handler stale qName "AXFR".toList w).outcome =
        .wrote ⟨RcodeServerFailure, true, false, true, [], [], []⟩ RcodeSuccess (some err)) ∧
    (∀ err st, S.db w0.st = (some err, st) →
      (ServeDNS S T handler stale qName "AXFR".toList w).outcome =
        .wrote ⟨RcodeServerFailure, true, false, true, [], [], []⟩ RcodeSuccess (some err)) ∧
    (∀ err st st2, S.db w0.st = (none, st) →
      S.Query ⟨Matches handler'.zones qName, relativeName (Matches handler'.zones qName) qName,
        ["AXFR".toList]⟩ st = (.error err, st2) →
      (ServeDNS S T handler stale qName "AXFR".toList w).outcome =
        .wrote ⟨RcodeServerFailure, true, false, true, [], [], []⟩ RcodeSuccess (some err)) ∧
    (∀ err st st2 rows, S.db w0.st = (none, st) →
      S.Query ⟨Matches handler'.zones qName, relativeName (Matches handler'.zones qName) qName,
        ["AXFR".toList]⟩ st = (.ok rows, st2) →
      scanRows rows [] = .error err →
      (ServeDNS S T handler stale qName "AXFR".toList w).outcome =
        .wrote ⟨RcodeServerFailure, true, false, true, [], [], []⟩ RcodeSuccess (some err)) := by
  have hc := ServeDNS_axfr_cases S T handler handler' stale qName w w0 hload hzone
  have hx : "AXFR".toList = ['A', 'X', 'F', 'R'] := rfl
  have hy : "SOA".toList = ['S', 'O', 'A'] := rfl
  rw [hx, hy]
  have herr : ∀ err w1,
      findRecord S (Matches handler'.zones qName) qName [['A', 'X', 'F', 'R']] w0
        = (.error err, w1) →
      (ServeDNS S T handler stale qName ['A', 'X', 'F', 'R'] w).outcome =
        .wrote ⟨RcodeServerFailure, true, false, true, [], [], []⟩ RcodeSuccess (some err) := by
    intro err w1 h1
    rw [hc, h1]
  refine ⟨?_, ?_, herr, ?_, ?_, ?_, ?_⟩
  · intro hdb hq
    obtain ⟨rs, hrs⟩ := (findRecord_run S (Matches handler'.zones qName) qName
      [['A', 'X', 'F', 'R']] w0).ok_of_noFailure hdb hq
    rw [hc]
    cases hf : findRecord S (Matches handler'.zones qName) qName [['A', 'X', 'F', 'R']] w0 with
    | mk res w1 =>
      rw [hf] at hrs
      simp only [] at hrs
      subst hrs
      simp only []
      split
      · obtain ⟨rs2, hrs2⟩ := (findRecord_run S (Matches handler'.zones qName) []
          [['S', 'O', 'A']] w1).ok_of_noFailure hdb hq
        cases hf2 : findRecord S (Matches handler'.zones qName) [] [['S', 'O', 'A']] w1 with
        | mk res2 w2 =>
          rw [hf2] at hrs2
          simp only [] at hrs2
          subst hrs2
          rfl
      · rfl
  · intro records w1 h1 h2
    rw [hc, h1]
    simp only []
    rcases h2 with hne | ⟨recs, w2, h2⟩
    · rw [if_neg (fun h => hne (List.length_eq_zero.mp h))]
    · split
      · rw [h2]
      · rfl
  · intro err w1 w2 h1 h2
    rw [hc, h1]
    simp only [List.length_nil, if_true]
    rw [h2]
  · intro err st hdb
    exact herr err _ (findRecord_dbFail S _ _ _ _ err st hdb)
  · intro err st st2 hdb hq
    exact herr err _ (findRecord_queryFail S _ _ _ _ err st st2 hdb hq)
  · intro err st st2 rows hdb hq hs
    exact herr err _ (findRecord_scanFail S _ _ _ _ err st st2 rows hdb hq hs)

/-- C5, witness: in the example zone the query `example.com.`/AXFR is answered with
rcode not-implemented; with a store whose queries fail the query
`www.example.com.`/AXFR is answered with rcode server-failure. -/
theorem ServeDNS_axfr_reply_witness :
    (ServeDNS (tableStore exampleRows) exampleTranslator ⟨[exampleZone]⟩ false
        exampleZone "AXFR".toList ⟨(), []⟩).outcome =
      .wrote ⟨RcodeNotImplemented, true, false, true, [], [], []⟩ RcodeSuccess none ∧
    (ServeDNS failingStore exampleTranslator ⟨[exampleZone]⟩ false
        "www.example.com.".toList "AXFR".toList ⟨(), []⟩).outcome =
      .wrote ⟨RcodeServerFailure, true, false, true, [], [], []⟩ RcodeSuccess
        (some ⟨"query failed".toList⟩) :=
  ⟨(ServeDNS_axfr_reply (tableStore exampleRows) exampleTranslator ⟨[exampleZone]⟩
      ⟨[exampleZone]⟩ false exampleZone ⟨(), []⟩ ⟨(), []⟩ rfl (by decide)).1 (fun _ => rfl)
      (fun l _ => ⟨_, (exampleRows.filter (fun r =>
          r.Zone == l.zone && r.Name == l.name && l.types.contains r.RecordType)), rfl,
        by simpa using scanRows_map_ok (exampleRows.filter (fun r =>
          r.Zone == l.zone && r.Name == l.name && l.types.contains r.RecordType)) []⟩),
    (ServeDNS_axfr_reply failingStore exampleTranslator ⟨[exampleZone]⟩
      ⟨[exampleZone]⟩ false "www.example.com.".toList ⟨(), []⟩ ⟨(), []⟩ rfl
      (by decide)).2.2.2.2.2.1 ⟨"query failed".toList⟩ () () rfl rfl⟩

/-- C5, counterexample: with a store whose queries fail, the query
`www.example.com.`/AXFR in the matched zone `example.com.` is answered with rcode
server-failure. -/
theorem ServeDNS_axfr_store_failure :
    (ServeDNS failingStore exampleTranslator ⟨[exampleZone]⟩ false
        "www.example.com.".toList "AXFR".toList ⟨(), []⟩).outcome =
      .wrote ⟨RcodeServerFailure, true, false, true, [], [], []⟩ RcodeSuccess
        (some ⟨"query failed".toList⟩) ∧
    Matches [exampleZone] "www.example.com.".toList = exampleZone := by
  refine ⟨rfl, ?_⟩
  decide

/-- C9: for the query `example.com.`/NS in the example zone, whose two name-server
records each translate with one additional record, the reply carries both answers but
the additional record of the second one only: the loop overwrites `extras` at every
record. -/
theorem ServeDNS_extras_of_last_record_only :
    (ServeDNS (tableStore exampleRows) exampleTranslator ⟨[exampleZone]⟩ false
        exampleZone "NS".toList ⟨(), []⟩).outcome =
      .wrote ⟨RcodeSuccess, true, false, true, [ns1Row, ns2Row], [],
        extrasOf exampleTranslator ns2Row⟩ RcodeSuccess none ∧
    extrasOf exampleTranslator ns1Row ++ extrasOf exampleTranslator ns2Row =
      [⟨"ns1.example.com.".toList, exampleZone, "A".toList, 300, "192.0.2.1".toList⟩,
       ⟨"ns2.example.com.".toList, exampleZone, "A".toList, 300, "192.0.2.1".toList⟩] ∧
    extrasOf exampleTranslator ns2Row =
      [⟨"ns2.example.com.".toList, exampleZone, "A".toList, 300, "192.0.2.1".toList⟩] := by
  refine ⟨rfl, rfl, rfl⟩

/-! ## Zone matching -/

theorem equal_iff (a b : Str) : equal a b = true ↔ a.map foldCase = b.map foldCase := by
  unfold equal
  constructor
  · intro h
    simp only [Bool.and_eq_true, decide_eq_true_eq, beq_iff_eq] at h
    exact h.2
  · intro h
    have hl := congrArg List.length h
    simp only [List.length_map] at hl
    simp [hl, h]

theorem compareLoop_eq (s1 s2 : Str) (l1 l2 : List Nat) (k1 k2 n : Nat) :
    compareLoop s1 s2 l1 l2 k1 k2 n =
      n + commonLen (revSegs s1 l1 k1) (revSegs s2 l2 k2) := by
  induction k1 generalizing k2 n with
  | zero => simp [compareLoop, revSegs, commonLen]
  | succ k1 ih =>
    cases k2 with
    | zero => simp [compareLoop, revSegs, commonLen]
    | succ k2 =>
      simp only [compareLoop, revSegs, commonLen]
      split
      · rw [ih]; omega
      · rfl

theorem CompareDomainName_eq (s1 s2 : Str) :
    CompareDomainName s1 s2 = commonLen (revLabels s1) (revLabels s2) := by
  unfold CompareDomainName revLabels
  by_cases h1 : s1 = ['.']
  · simp [h1, commonLen]
  · by_cases h2 : s2 = ['.']
    · simp only [h2, or_true, if_true]
      split <;> simp [commonLen]
    · simp only [h1, h2, or_self, if_false, commonLen]
      split
      · rw [compareLoop_eq]; omega
      · rfl

theorem commonLen_eq_length_iff (xs ys : List Str) :
    commonLen xs ys = xs.length ↔
      xs.map (List.map foldCase) <+: ys.map (List.map foldCase) := by
  induction xs generalizing ys with
  | nil => simp [commonLen]
  | cons x xs ih =>
    cases ys with
    | nil => simp [commonLen]
    | cons y ys =>
      simp only [commonLen, List.map_cons, List.cons_prefix_cons, List.length_cons]
      by_cases he : equal x y = true
      · rw [if_pos he, ← ih ys]
        have := (equal_iff x y).mp he
        constructor
        · intro h; exact ⟨this, by omega⟩
        · intro h; omega
      · rw [if_neg he]
        constructor
        · intro h; omega
        · intro h; exact absurd ((equal_iff x y).mpr h.1) he

theorem splitLoop_append (s : Str) (n off : Nat) (idx : List Nat) :
    ∃ t, splitLoop s n off idx = idx ++ t := by
  induction n generalizing off idx with
  | zero => exact ⟨[], by simp [splitLoop]⟩
  | succ n ih =>
    simp only [splitLoop]
    split
    · exact ⟨[], by simp⟩
    · obtain ⟨t, ht⟩ := ih (NextLabel s off).1 (idx ++ [(NextLabel s off).1])
      exact ⟨(NextLabel s off).1 :: t, by rw [ht]; simp⟩

/-- The bound of `Split` is never exhausted: any two bounds that reach the end of the
string give the same offsets. -/
theorem splitLoop_fuel (s : Str) (n m off : Nat) (idx : List Nat)
    (hn : 1 ≤ n) (hn2 : s.length ≤ n + off) (hm : 1 ≤ m) (hm2 : s.length ≤ m + off) :
    splitLoop s n off idx = splitLoop s m off idx := by
  induction n generalizing m off idx with
  | zero => omega
  | succ n ih =>
    cases m with
    | zero => omega
    | succ m =>
      simp only [splitLoop]
      cases hr : NextLabel s off with
      | mk r e =>
        cases e with
        | true => simp
        | false =>
          have hlt := NextLabel_lt s off r hr
          simp only [Bool.false_eq_true, if_false]
          by_cases hn0 : n = 0
          · omega
          · by_cases hm0 : m = 0
            · omega
            · exact ih m r _ (by omega) (by omega) (by omega) (by omega)

theorem countLoop_splitLoop (s : Str) (n off c : Nat) (idx : List Nat)
    (hn : 1 ≤ n) (hn2 : s.length ≤ n + off) :
    countLoop s n off c + idx.length = c + (splitLoop s n off idx).length + 1 := by
  induction n generalizing off c idx with
  | zero => omega
  | succ n ih =>
    simp only [countLoop, splitLoop]
    cases hr : NextLabel s off with
    | mk r e =>
      cases e with
      | true => simp; omega
      | false =>
        have hlt := NextLabel_lt s off r hr
        simp only [Bool.false_eq_true, if_false]
        by_cases hn0 : n = 0
        · omega
        · have := ih r (c + 1) (idx ++ [r]) (by omega) (by omega)
          simp only [List.length_append, List.length_singleton] at this
          omega

/-- The bound of `CountLabel` is never exhausted. -/
theorem countLoop_fuel (s : Str) (n m off c : Nat)
    (hn : 1 ≤ n) (hn2 : s.length ≤ n + off) (hm : 1 ≤ m) (hm2 : s.length ≤ m + off) :
    countLoop s n off c = countLoop s m off c := by
  have h1 := countLoop_splitLoop s n off c [] hn hn2
  have h2 := countLoop_splitLoop s m off c [] hm hm2
  rw [splitLoop_fuel s n m off [] hn hn2 hm hm2] at h1
  omega

theorem Split_length_pos (s : Str) (h : s ≠ ['.']) : 0 < (Split s).length := by
  unfold Split
  rw [if_neg h]
  obtain ⟨t, ht⟩ := splitLoop_append s (s.length + 1) 0 [0]
  rw [ht]
  simp

theorem CountLabel_eq (s : Str) : CountLabel s = (Split s).length := by
  unfold CountLabel Split
  split
  · rfl
  · have := countLoop_splitLoop s (s.length + 1) 0 0 [0] (by omega) (by omega)
    simp only [List.length_singleton] at this
    omega

theorem cuts_nil (s : Str) (e : Nat) : cuts s [] e = [] := rfl

theorem cuts_cons_cons (s : Str) (x y : Nat) (m : List Nat) (e : Nat) :
    cuts s (x :: y :: m) e = slice s x y :: cuts s (y :: m) e := rfl

theorem cuts_append_singleton (s : Str) (l : List Nat) (a e : Nat) :
    cuts s (l ++ [a]) e = cuts s l a ++ [slice s a e] := by
  induction l with
  | nil => rfl
  | cons x l ih =>
    cases l with
    | nil => rfl
    | cons y m =>
      rw [List.cons_append, List.cons_append, cuts_cons_cons, cuts_cons_cons]
      rw [← List.cons_append, ih]
      rfl

theorem cuts_length (s : Str) (l : List Nat) (e : Nat) : (cuts s l e).length = l.length := by
  unfold cuts
  simp only [List.length_zipWith, List.length_append, List.length_tail, List.length_singleton]
  omega

theorem revSegs_eq (s : Str) (l : List Nat) (k : Nat) (h : k < l.length) :
    revSegs s l k = (cuts s (l.take k) (l.getD k 0)).reverse := by
  induction k with
  | zero => simp [revSegs, cuts_nil]
  | succ k ih =>
    have hk : k < l.length := by omega
    have h1 : l.take (k + 1) = l.take k ++ [l.getD k 0] := by
      rw [List.take_succ, List.getElem?_eq_getElem hk, List.getD_eq_getElem l 0 hk]
      rfl
    rw [revSegs, ih hk, h1, cuts_append_singleton]
    simp

theorem revLabels_eq (s : Str) : revLabels s = (labels s).reverse := by
  unfold revLabels labels
  by_cases h : s = ['.']
  · subst h
    rfl
  · rw [if_neg h]
    have hpos := Split_length_pos s h
    generalize Split s = l at hpos
    have hk : l.length - 1 < l.length := by omega
    have h1 : l = l.take (l.length - 1) ++ [l.getD (l.length - 1) 0] := by
      have := @List.take_succ _ l (l.length - 1)
      rw [List.getElem?_eq_getElem hk, ← List.getD_eq_getElem l 0 hk] at this
      have h2 : l.length - 1 + 1 = l.length := by omega
      rw [h2, List.take_length] at this
      exact this
    rw [revSegs_eq s l _ hk]
    conv => rhs; rw [h1, cuts_append_singleton]
    simp [slice]

/-- The library's subdomain test is the label-aligned, case-insensitive suffix
relation on names. -/
theorem IsSubDomain_iff (z q : Str) : IsSubDomain z q = true ↔ labelSuffix z q := by
  unfold IsSubDomain labelSuffix lowerLabels
  rw [CompareDomainName_eq, CountLabel_eq, beq_iff_eq]
  have hl : (Split z).length = (revLabels z).length := by
    rw [revLabels_eq, List.length_reverse, labels, cuts_length]
  rw [hl, commonLen_eq_length_iff, revLabels_eq, revLabels_eq, List.map_reverse,
    List.map_reverse, List.reverse_prefix]

theorem splitLoop_bound (s : Str) (n off : Nat) (idx : List Nat)
    (h : ∀ c ∈ idx, c < s.length) : ∀ c ∈ splitLoop s n off idx, c < s.length := by
  induction n generalizing off idx with
  | zero => simpa [splitLoop] using h
  | succ n ih =>
    simp only [splitLoop]
    cases hr : NextLabel s off with
    | mk r e =>
      cases e with
      | true => simpa using h
      | false =>
        have hlt := NextLabel_lt s off r hr
        simp only [Bool.false_eq_true, if_false]
        apply ih
        intro c hc
        rcases List.mem_append.mp hc with hc | hc
        · exact h c hc
        · simp only [List.mem_singleton] at hc
          omega

theorem Split_bound (s : Str) (h : s ≠ []) : ∀ c ∈ Split s, c < s.length := by
  unfold Split
  split
  · simp
  · apply splitLoop_bound
    intro c hc
    simp only [List.mem_singleton] at hc
    have := List.length_pos.mpr h
    omega

/-- Only the empty name has the empty string as a label-aligned suffix. -/
theorem labelSuffix_nil (q : Str) (h : labelSuffix [] q) : q = [] := by
  by_contra hq
  unfold labelSuffix at h
  obtain ⟨t, ht⟩ := h
  have hrev : (revLabels q).map (List.map foldCase) = [] :: t.reverse := by
    rw [revLabels_eq, List.map_reverse]
    have : (labels q).map (List.map foldCase) = lowerLabels q := rfl
    rw [this, ← ht]
    have : lowerLabels [] = [[]] := by decide
    rw [this]
    simp
  unfold revLabels at hrev
  split at hrev
  · simp at hrev
  · rename_i hdot
    simp only [List.map_cons, List.cons.injEq, List.map_eq_nil_iff, List.drop_eq_nil_iff] at hrev
    have hpos := Split_length_pos q hdot
    have hmem : (Split q).getD ((Split q).length - 1) 0 ∈ Split q := by
      rw [List.getD_eq_getElem (Split q) 0 (by omega)]
      exact List.getElem_mem _
    have := Split_bound q hq _ hmem
    omega

theorem matchesLoop_spec (q : Str) (Z : List Str) (acc : Str) :
    (matchesLoop q Z acc = acc ∨
        (matchesLoop q Z acc ∈ Z ∧ IsSubDomain (matchesLoop q Z acc) q = true)) ∧
      acc.length ≤ (matchesLoop q Z acc).length ∧
      ∀ z ∈ Z, IsSubDomain z q = true → z.length ≤ (matchesLoop q Z acc).length := by
  induction Z generalizing acc with
  | nil => simp [matchesLoop]
  | cons zname rest ih =>
    simp only [matchesLoop]
    by_cases hsub : IsSubDomain zname q = true
    · rw [if_pos hsub]
      by_cases hlen : zname.length > acc.length
      · rw [if_pos hlen]
        obtain ⟨h1, h2, h3⟩ := ih zname
        refine ⟨?_, by omega, ?_⟩
        · right
          rcases h1 with h1 | h1
          · rw [h1]; exact ⟨List.mem_cons_self _ _, hsub⟩
          · exact ⟨List.mem_cons_of_mem _ h1.1, h1.2⟩
        · intro z hz hzq
          rcases List.mem_cons.mp hz with rfl | hz
          · exact h2
          · exact h3 z hz hzq
      · rw [if_neg hlen]
        obtain ⟨h1, h2, h3⟩ := ih acc
        refine ⟨?_, h2, ?_⟩
        · rcases h1 with h1 | h1
          · left; exact h1
          · right; exact ⟨List.mem_cons_of_mem _ h1.1, h1.2⟩
        · intro z hz hzq
          rcases List.mem_cons.mp hz with rfl | hz
          · omega
          · exact h3 z hz hzq
    · rw [if_neg hsub]
      obtain ⟨h1, h2, h3⟩ := ih acc
      refine ⟨?_, h2, ?_⟩
      · rcases h1 with h1 | h1
        · left; exact h1
        · right; exact ⟨List.mem_cons_of_mem _ h1.1, h1.2⟩
      · intro z hz hzq
        rcases List.mem_cons.mp hz with rfl | hz
        · exact absurd hzq hsub
        · exact h3 z hz hzq

theorem serveRecords_ne_next {σ RR : Type} (S : Store σ) (T : Translator RR)
    (handler : Handler) (qZone qName qType : Str) (b : Bool) (rs : List Record)
    (w : World σ) : (serveRecords S T handler qZone qName qType b rs w).outcome ≠ .next := by
  unfold serveRecords
  simp only []
  generalize (if qType = ['S', 'O', 'A'] then _ else _ : Except GoError (List Record) × World σ)
    = r
  obtain ⟨res, w2⟩ := r
  cases res with
  | error err => simp [errorResponse]
  | ok recs =>
    simp only []
    by_cases hax : qType = ['A', 'X', 'F', 'R']
    · simp [hax, errorResponse]
    · rw [if_neg hax]
      cases translateLoop T recs [] [] with
      | error p => obtain ⟨c, e⟩ := p; simp [errorResponse]
      | ok p => obtain ⟨a, e⟩ := p; simp

theorem foldCase_eq_toLower (c : Char) : foldCase c = c.toLower := by
  unfold foldCase Char.toLower
  have h1 : ('A' ≤ c) ↔ c.toNat ≥ 65 := by
    rw [Char.le_def]; rfl
  have h2 : (c ≤ 'Z') ↔ c.toNat ≤ 90 := by
    rw [Char.le_def]; rfl
  simp only [h1, h2]

theorem splitLoop_acc (s : Str) (n off : Nat) (idx : List Nat) :
    splitLoop s n off idx = idx ++ splitLoop s n off [] := by
  induction n generalizing off idx with
  | zero => simp [splitLoop]
  | succ n ih =>
    simp only [splitLoop]
    split
    · simp
    · rw [ih _ (idx ++ _), ih _ ([] ++ _)]
      simp

theorem NextLabel_atEnd (s : Str) (off : Nat) (h : s.length ≤ off + 1) :
    (NextLabel s off).2 = true := by
  unfold NextLabel
  split
  · rfl
  · have : s.length - 1 - off = 0 := by omega
    rw [this]
    rfl

theorem restOffsets_eq (s : Str) (off : Nat) :
    restOffsets s off =
      if (NextLabel s off).2 then [] else (NextLabel s off).1 :: restOffsets s (NextLabel s off).1 := by
  have h : restOffsets s off = splitLoop s (s.length + 1) off [] := rfl
  rw [h, splitLoop]
  cases hr : NextLabel s off with
  | mk r e =>
    cases e with
    | true => simp
    | false =>
      have hlt := NextLabel_lt s off r hr
      simp only [Bool.false_eq_true, if_false]
      rw [splitLoop_acc]
      rw [splitLoop_fuel s s.length (s.length + 1) r [] (by omega) (by omega) (by omega)
        (by omega)]
      rfl

theorem NextLabel_step (s : Str) (p : Nat) (h : p + 1 < s.length) :
    NextLabel s p =
      if s[p]? ≠ some '.' then NextLabel s (p + 1)
      else if escapedAt s p = true then NextLabel s (p + 1)
      else (p + 1, false) := by
  have hs : s ≠ [] := by
    intro h0; rw [h0] at h; simp at h
  have hn : s.length - 1 - p = (s.length - 1 - (p + 1)) + 1 := by omega
  unfold NextLabel escapedAt
  rw [if_neg hs, if_neg hs, hn, nextLabelLoop]
  simp only [decide_eq_true_eq]

theorem escapedAt_zero (s : Str) : escapedAt s 0 = false := by
  simp [escapedAt, backScan]

theorem escapedAt_succ (s : Str) (p : Nat) :
    escapedAt s (p + 1) = (!escapedAt s p && (s[p]? == some '\\')) := by
  unfold escapedAt
  rw [backScan]
  by_cases hc : s[p]? = some '\\'
  · rw [if_pos hc, hc]
    by_cases h2 : (backScan s p - (p : Int)) % 2 = 0
    · have : ¬ (backScan s p - ((p + 1 : Nat) : Int)) % 2 = 0 := by
        push_cast; omega
      rw [decide_eq_false this, decide_eq_true h2]
      rfl
    · have : (backScan s p - ((p + 1 : Nat) : Int)) % 2 = 0 := by
        push_cast; omega
      rw [decide_eq_true this, decide_eq_false h2]
      rfl
  · have : ¬ (((p : Nat) : Int) - ((p + 1 : Nat) : Int)) % 2 = 0 := by
      push_cast; omega
    rw [if_neg hc, decide_eq_false this]
    have hb : (s[p]? == some '\\') = false := by
      simpa using hc
    rw [hb]
    simp

theorem slice_succ (s : Str) (start p : Nat) (hsp : start ≤ p) (hp : p < s.length) :
    slice s start p ++ [s[p]] = slice s start (p + 1) := by
  unfold slice
  rw [List.take_succ, List.getElem?_eq_getElem hp]
  simp only [Option.toList]
  rw [List.drop_append_of_le_length (by rw [List.length_take]; omega)]

/-- The labels read from the left are the pieces between the offsets of `dns.Split`. -/
theorem splitLabels_eq_cuts (s : Str) (k p start : Nat) (hk : p + k = s.length)
    (hsp : start ≤ p) :
    splitLabels (s.drop p) (escapedAt s p) (slice s start p) =
      cuts s (start :: restOffsets s p) s.length := by
  induction k generalizing p start with
  | zero =>
    have hp : p = s.length := by omega
    subst hp
    rw [List.drop_length, restOffsets_eq, NextLabel_atEnd s _ (by omega)]
    simp [splitLabels, cuts, slice]
  | succ k ih =>
    have hp : p < s.length := by omega
    rw [List.drop_eq_getElem_cons hp, splitLabels]
    have hemp : (s.drop (p + 1)).isEmpty = decide (s.length ≤ p + 1) := by
      rw [Bool.eq_iff_iff]
      simp [List.isEmpty_iff]
    by_cases hsep : (!escapedAt s p && s[p] == '.' && !(s.drop (p + 1)).isEmpty) = true
    · rw [if_pos hsep]
      simp only [Bool.and_eq_true, Bool.not_eq_true', beq_iff_eq, hemp,
        decide_eq_false_iff_not, Nat.not_le] at hsep
      obtain ⟨⟨hesc, hdot⟩, hlen⟩ := hsep
      have hnl : NextLabel s p = (p + 1, false) := by
        rw [NextLabel_step s p hlen]
        simp [List.getElem?_eq_getElem hp, hdot, hesc]
      have hesc' : escapedAt s (p + 1) = false := by
        rw [escapedAt_succ]
        simp [List.getElem?_eq_getElem hp, hdot]
      have hih := ih (p + 1) (p + 1) (by omega) (Nat.le_refl _)
      rw [hesc'] at hih
      have hnil : slice s (p + 1) (p + 1) = [] := by
        simp [slice]
      rw [hnil] at hih
      rw [hih, restOffsets_eq s p, hnl]
      simp only [Bool.false_eq_true, if_false]
      rw [cuts_cons_cons, slice_succ s start p hsp hp]
    · rw [if_neg hsep]
      have hesc' : escapedAt s (p + 1) = (!escapedAt s p && s[p] == '\\') := by
        rw [escapedAt_succ, List.getElem?_eq_getElem hp]
        cases escapedAt s p <;> simp
      have hrest : restOffsets s p = restOffsets s (p + 1) := by
        rw [restOffsets_eq s p, restOffsets_eq s (p + 1)]
        by_cases hlen : p + 1 < s.length
        · have hnl : NextLabel s p = NextLabel s (p + 1) := by
            rw [NextLabel_step s p hlen]
            simp only [Bool.and_eq_true, Bool.not_eq_true', beq_iff_eq, hemp,
              decide_eq_false_iff_not, Nat.not_le, not_and] at hsep
            by_cases hdot : s[p] = '.'
            · by_cases hesc : escapedAt s p = true
              · simp [hesc]
              · simp only [Bool.not_eq_true] at hesc
                exact absurd hlen (hsep ⟨hesc, hdot⟩)
            · simp [List.getElem?_eq_getElem hp, hdot]
          rw [hnl]
        · rw [if_pos (NextLabel_atEnd s p (by omega)),
            if_pos (NextLabel_atEnd s (p + 1) (by omega))]
      have hih := ih (p + 1) start (by omega) (by omega)
      rw [hesc', ← slice_succ s start p hsp hp] at hih
      rw [hih, hrest]

theorem labels_eq_nameLabels (s : Str) : labels s = nameLabels s := by
  unfold labels nameLabels Split
  by_cases h : s = ['.']
  · subst h; rfl
  · rw [if_neg h, if_neg h, splitLoop_acc]
    have := splitLabels_eq_cuts s s.length 0 0 (by omega) (Nat.le_refl _)
    rw [escapedAt_zero] at this
    simp only [List.drop_zero, slice, List.take_zero, List.drop_nil] at this
    rw [this]
    rfl

/-- The library's subdomain test is the label-aligned, case-insensitive suffix relation
stated without the library. -/
theorem IsSubDomain_iff_labelAlignedSuffix (z q : Str) :
    IsSubDomain z q = true ↔ labelAlignedSuffix z q := by
  rw [IsSubDomain_iff]
  unfold labelSuffix lowerLabels labelAlignedSuffix
  have hf : foldCase = Char.toLower := funext foldCase_eq_toLower
  rw [labels_eq_nameLabels, labels_eq_nameLabels, hf]

theorem splitLabels_flatten (s : Str) (esc : Bool) (cur : Str) :
    (splitLabels s esc cur).flatten = cur ++ s := by
  induction s generalizing esc cur with
  | nil => simp [splitLabels]
  | cons c rest ih =>
    rw [splitLabels]
    split
    · rw [List.flatten_cons, ih]; simp
    · rw [ih]; simp

theorem splitLabels_ne_nil (s : Str) (esc : Bool) (cur : Str) : splitLabels s esc cur ≠ [] := by
  induction s generalizing esc cur with
  | nil => simp [splitLabels]
  | cons c rest ih =>
    rw [splitLabels]
    split
    · simp
    · exact ih _ _

/-- Every label but the last ends with the dot that closes it. -/
theorem splitLabels_front (s : Str) (esc : Bool) (cur : Str) (front back : List Str)
    (h : splitLabels s esc cur = front ++ back) (hb : back ≠ []) :
    ∀ l ∈ front, ∃ l', l = l' ++ ['.'] := by
  induction s generalizing esc cur front with
  | nil =>
    rw [splitLabels] at h
    cases front with
    | nil => simp
    | cons x xs =>
      simp only [List.cons_append, List.cons.injEq] at h
      have := h.2
      simp only [List.nil_eq, List.append_eq_nil] at this
      exact absurd this.2 hb
  | cons c rest ih =>
    rw [splitLabels] at h
    split at h
    · rename_i hsep
      cases front with
      | nil => simp
      | cons x xs =>
        simp only [List.cons_append, List.cons.injEq] at h
        simp only [Bool.and_eq_true, Bool.not_eq_true', beq_iff_eq] at hsep
        intro l hl
        rcases List.mem_cons.mp hl with rfl | hl
        · exact ⟨cur, by rw [← h.1, hsep.1.2]⟩
        · exact ih _ _ xs h.2 l hl
    · exact ih _ _ front h

/-- A name other than the root that is a label-aligned, case-insensitive suffix of `q`
is, letter case apart, a suffix of the string `q` that starts at the start of `q` or
right after a dot. -/
theorem labelAlignedSuffix_string (z q : Str) (h : labelAlignedSuffix z q) (hz : z ≠ ['.']) :
    ∃ pre z', q = pre ++ z' ∧ z'.map Char.toLower = z.map Char.toLower ∧
      (pre = [] ∨ ∃ p, pre = p ++ ['.']) := by
  unfold labelAlignedSuffix at h
  obtain ⟨t, ht⟩ := h
  obtain ⟨front, back, hq, _, hback⟩ := List.map_eq_append_iff.mp ht.symm
  have hzl : nameLabels z = splitLabels z false [] := by
    unfold nameLabels; rw [if_neg hz]
  have hbne : back ≠ [] := by
    intro hb
    rw [hb, hzl] at hback
    simp only [List.map_nil, List.nil_eq, List.map_eq_nil_iff] at hback
    exact splitLabels_ne_nil _ _ _ hback
  have hqd : q ≠ ['.'] := by
    intro hq0
    rw [hq0] at hq
    have : nameLabels ['.'] = [] := rfl
    rw [this] at hq
    simp only [List.nil_eq, List.append_eq_nil] at hq
    exact hbne hq.2
  have hql : nameLabels q = splitLabels q false [] := by
    unfold nameLabels; rw [if_neg hqd]
  have hqf : q = front.flatten ++ back.flatten := by
    have := splitLabels_flatten q false []
    rw [← hql, hq, List.flatten_append] at this
    simpa using this.symm
  have hzf : (back.flatten).map Char.toLower = z.map Char.toLower := by
    rw [List.map_flatten, hback, ← List.map_flatten, hzl, splitLabels_flatten]
    simp
  refine ⟨front.flatten, back.flatten, hqf, hzf, ?_⟩
  rcases List.eq_nil_or_concat front with hf | ⟨f0, l, hf⟩
  · left; rw [hf]; rfl
  · right
    have hmem : l ∈ front := by rw [hf]; simp
    rw [hql] at hq
    obtain ⟨l', hl'⟩ := splitLabels_front q false [] front back hq hbne l hmem
    refine ⟨f0.flatten ++ l', ?_⟩
    rw [hf, List.concat_eq_append, List.flatten_append, hl']
    simp

end CoreDNSMySql
